import Mathlib

/-!
Verification of the gsnake-levels content toolchain against its specification.

The Rust sources are shallowly embedded: pure functions become Lean functions,
the file system and the external game engine appear as explicit parameters
(the engine is third-party and is specified only as a boundary contract, so it
is modelled as an abstract state type with a step function and a status
observation).  Machine integers are modelled as Nat/Int; overflow is made
explicit where it matters.
-/

namespace GsnakeLevels

/-! ### Decimal representation of naturals

Helper development used to reason about strings produced with a numeric
counter (name uniquification) and numeric error messages.  `repDigits` is a
fuel-free restatement of core's `Nat.toDigitsCore` at base 10. -/

def repDigits (n : Nat) : List Char :=
  if n < 10 then [Nat.digitChar n]
  else repDigits (n / 10) ++ [Nat.digitChar (n % 10)]
decreasing_by exact Nat.div_lt_self (by omega) (by omega)

def digitsVal (l : List Char) : Nat :=
  l.foldl (fun a c => 10 * a + (c.toNat - 48)) 0

/-! ### Game-engine boundary types

`Direction` and `GameStatus` are supplied by the external engine crate
(`gsnake_core`); the toolchain only relies on the four listed variants of
each. -/

inductive Direction where
  | North
  | South
  | East
  | West
deriving DecidableEq, Fintype

inductive GameStatus where
  | Playing
  | GameOver
  | LevelComplete
  | AllComplete
deriving DecidableEq, Fintype

def GameStatus.isCompleteStatus : GameStatus → Bool
  | .LevelComplete => true
  | .AllComplete => true
  | _ => false

/-! ### Level Solver (src/solver.rs)

The engine is abstract: a state type with decidable equality (states double
as the solver's deduplication key, which the spec describes as a composite of
every field that can affect future transitions), a step function and a status
observation.  `step s d = some s2` models `process_move` returning
`Ok(true)` with successor state `s2`; `none` models both `Err(_)` and
`Ok(false)`, which the solver skips identically. -/

section Solver

variable {σ : Type}

/-- Fixed exploration order used by the solver. -/
def solverDirections : List Direction :=
  [Direction.North, Direction.South, Direction.East, Direction.West]

/-- Replaying a path of processed moves through the engine. -/
def replay (step : σ → Direction → Option σ) : σ → List Direction → Option σ
  | s, [] => some s
  | s, d :: rest =>
    match step s d with
    | none => none
    | some s2 => replay step s2 rest

/-- Engine boundary assumption: a move is only ever processed while the
status is Playing (terminal statuses accept no further moves). -/
def MovesOnlyWhilePlaying (step : σ → Direction → Option σ)
    (status : σ → GameStatus) : Prop :=
  ∀ s d s2, step s d = some s2 → status s = GameStatus.Playing

/-- The successor nodes enqueued when expanding a search node, in the fixed
direction order North, South, East, West. -/
def childNodes (step : σ → Direction → Option σ) (s : σ) (p : List Direction) :
    List (σ × List Direction) :=
  solverDirections.filterMap fun d => (step s d).map fun s2 => (s2, p ++ [d])

/-- Strict upper bound on the number of loop iterations a queue entry at the
given remaining depth can still cause: searchBudget (k+1) = 1 + 4 * searchBudget k. -/
def searchBudget : Nat → Nat
  | 0 => 1
  | k + 1 => 1 + 4 * searchBudget k

/-- The total loop-iteration budget of a queue. -/
def queueWeight (maxDepth : Nat) (queue : List (σ × List Direction)) : Nat :=
  (queue.map fun e => searchBudget (maxDepth + 2 - e.2.length)).sum

/-- The solver's breadth-first loop over `(state, path)` nodes with a visited
set, embedded with explicit fuel; `solve_level` supplies fuel that provably
dominates the loop-iteration budget of the initial queue, so the fuel-exhaustion
branch is unreachable (see `solveLoop_fuel_stable`). -/
def solveLoop [DecidableEq σ] (step : σ → Direction → Option σ)
    (status : σ → GameStatus) (maxDepth : Nat) :
    Nat → List (σ × List Direction) → List σ → Except String (List Direction)
  | _, [], _ => .error "No solution found"
  | 0, _ :: _, _ => .error "No solution found"
  | fuel + 1, (s, p) :: rest, visited =>
    if p.length > maxDepth then
      solveLoop step status maxDepth fuel rest visited
    else if (status s).isCompleteStatus = true then
      .ok p
    else if status s = GameStatus.GameOver then
      solveLoop step status maxDepth fuel rest visited
    else if s ∈ visited then
      solveLoop step status maxDepth fuel rest visited
    else
      solveLoop step status maxDepth fuel (rest ++ childNodes step s p) (s :: visited)

/-- Model of `solve_level` from src/solver.rs, seeded with the constructed engine state
and the empty path (engine construction itself is surfaced separately and is
not part of the search). -/
def solve_level [DecidableEq σ] (step : σ → Direction → Option σ)
    (status : σ → GameStatus) (s0 : σ) (maxDepth : Nat) :
    Except String (List Direction) :=
  solveLoop step status maxDepth (searchBudget (maxDepth + 2)) [(s0, [])] []

/-- The level has a reachable completing state within maxDepth moves. -/
def ReachesCompletionWithin (step : σ → Direction → Option σ)
    (status : σ → GameStatus) (s0 : σ) (maxDepth : Nat) : Prop :=
  ∃ p t, replay step s0 p = some t ∧ (status t).isCompleteStatus = true ∧
    p.length ≤ maxDepth

/-- Invariant of the breadth-first loop used for the completeness proof. -/
structure SolveInv (step : σ → Direction → Option σ) (status : σ → GameStatus)
    (queue : List (σ × List Direction)) (visited : List σ) : Prop where
  visPlaying : ∀ v ∈ visited, status v = GameStatus.Playing
  cover : ∀ v ∈ visited, ∀ d s2, step v d = some s2 →
    (status s2 = GameStatus.Playing ∨ (status s2).isCompleteStatus = true) →
    s2 ∈ visited ∨ ∃ q, (s2, q) ∈ queue
  sortedQ : (queue.map fun e => e.2.length).Sorted (· ≤ ·)
  closeQ : ∀ a ∈ queue.map (fun e => e.2.length),
    ∀ b ∈ queue.map (fun e => e.2.length), a ≤ b + 1

/-- Some unvisited queue node still leads to a completing state within the
depth bound. -/
def HasWitness (step : σ → Direction → Option σ) (status : σ → GameStatus)
    (maxDepth : Nat) (queue : List (σ × List Direction)) (visited : List σ) : Prop :=
  ∃ s q cont t, (s, q) ∈ queue ∧ s ∉ visited ∧ replay step s cont = some t ∧
    (status t).isCompleteStatus = true ∧ q.length + cont.length ≤ maxDepth

end Solver

/-! ### Verifier (src/verify.rs)

`pm s d` models `process_move`: `.ok s2` is a (legal or rejected) move
application yielding engine state `s2` (the returned bool is ignored by the
verifier), `.error e` a hard move-application failure.  The status is read
from the regenerated observation frame, modelled by `status`. -/

section Verifier

variable {σ : Type}

def directionName : Direction → String
  | .North => "North"
  | .South => "South"
  | .East => "East"
  | .West => "West"

/-- The direction-replay loop of `verify_level`: before each recorded
direction the current status is read, and the loop stops at the first
non-Playing status; a move failure aborts with context naming the
direction. -/
def runPlayback (pm : σ → Direction → Except String σ) (status : σ → GameStatus) :
    σ → List Direction → Except String σ
  | s, [] => .ok s
  | s, d :: rest =>
    if status s ≠ GameStatus.Playing then .ok s
    else
      match pm s d with
      | .error e => .error ("Engine move failed for direction " ++ directionName d ++ ": " ++ e)
      | .ok s2 => runPlayback pm status s2 rest

/-- Model of `verify_level` from src/verify.rs, after the level, playback and engine
have been obtained: replay the recorded directions and classify the final
status. -/
def verify_level (pm : σ → Direction → Except String σ) (status : σ → GameStatus)
    (s0 : σ) (dirs : List Direction) : Except String Unit :=
  match runPlayback pm status s0 dirs with
  | .error e => .error e
  | .ok s =>
    match status s with
    | .LevelComplete => .ok ()
    | .AllComplete => .ok ()
    | .GameOver => .error "Playback resulted in Game Over"
    | .Playing => .error "Playback did not complete the level"

end Verifier

/-! ### Level Analysis (src/analysis.rs) -/

structure Position where
  x : Int
  y : Int
deriving DecidableEq

inductive ObstaclePattern where
  | VerticalWall
  | HorizontalWall
  | Scattered
  | None
deriving DecidableEq

/-- Maximum over all distinct x-coordinates of the number of obstacles sharing
that x (the HashSet iteration of the source is order-irrelevant under max;
`unwrap_or(0)` on an empty iterator is the fold's base case). -/
def maxVerticalCount (obstacles : List Position) : Nat :=
  (((obstacles.map Position.x).dedup).map
    fun x => (obstacles.filter fun p => p.x = x).length).foldr max 0

def maxHorizontalCount (obstacles : List Position) : Nat :=
  (((obstacles.map Position.y).dedup).map
    fun y => (obstacles.filter fun p => p.y = y).length).foldr max 0

def detect_obstacle_pattern (obstacles : List Position) : ObstaclePattern :=
  if obstacles = [] then .None
  else if maxVerticalCount obstacles ≥ obstacles.length * 4 / 10 then .VerticalWall
  else if maxHorizontalCount obstacles ≥ obstacles.length * 4 / 10 then .HorizontalWall
  else .Scattered

/-- The spec's formulation of "the maximum number of obstacles sharing one
coordinate", stated over the finite set of occurring coordinates. -/
def specMaxShare (coords : List Int) : Nat :=
  coords.toFinset.sup fun x => coords.count x

/-- Obstacle-pattern detection as worded by the specification. -/
def specObstaclePattern (obstacles : List Position) : ObstaclePattern :=
  if obstacles = [] then .None
  else if specMaxShare (obstacles.map Position.x) ≥ obstacles.length * 4 / 10 then
    .VerticalWall
  else if specMaxShare (obstacles.map Position.y) ≥ obstacles.length * 4 / 10 then
    .HorizontalWall
  else .Scattered

/-! ### Playback Codec (src/playback.rs)

The JSON file layer is out of scope; a loaded playback file is a list of
`{key, delay_ms}` steps. -/

structure PlaybackFileStep where
  key : String
  delay_ms : Nat
deriving DecidableEq

def parse_string_char (ch : Char) : Except String Direction :=
  if ch = 'R' then .ok .East
  else if ch = 'D' then .ok .South
  else if ch = 'L' then .ok .West
  else if ch = 'U' then .ok .North
  else .error ("Invalid input character \x27" ++ String.mk [ch] ++ "\x27. Use R, D, L, U for moves.")

/-- Model of `parse_key`: the Rust byte-length-1 fast path is modelled by a
single-character pattern match (the two tests agree whenever the fast path's
R/D/L/U comparison can succeed, since those characters are one byte). -/
def parse_key (key : String) : Except String Direction :=
  match key.data with
  | [ch] =>
    if ch = 'R' ∨ ch = 'D' ∨ ch = 'L' ∨ ch = 'U' then parse_string_char ch
    else parseKeyFallback key
  | _ => parseKeyFallback key
where
  parseKeyFallback (key : String) : Except String Direction :=
    let normalized := key.trim.toLower
    if normalized = "right" ∨ normalized = "east" then .ok .East
    else if normalized = "down" ∨ normalized = "south" then .ok .South
    else if normalized = "left" ∨ normalized = "west" then .ok .West
    else if normalized = "up" ∨ normalized = "north" then .ok .North
    else .error ("Invalid key \x27" ++ key ++ "\x27. Use Right/Left/Up/Down (or R/L/U/D).")

/-- The per-step loop of `load_playback_directions`: 0-based enumeration, the
error of a failing step wrapped with 1-based index and file path context. -/
def loadSteps (path : String) : Nat → List PlaybackFileStep → Except String (List Direction)
  | _, [] => .ok []
  | index, step :: rest =>
    match parse_key step.key with
    | .error e =>
      .error ("Failed to parse playback step " ++ Nat.repr (index + 1) ++ " in " ++
        path ++ ": " ++ e)
    | .ok d => (loadSteps path (index + 1) rest).map fun ds => d :: ds

def load_playback_directions (path : String) (raw_steps : List PlaybackFileStep) :
    Except String (List Direction) :=
  if raw_steps = [] then .error "Playback input file is empty"
  else loadSteps path 0 raw_steps

/-- Key parsing as worded by the specification: first the exact single
characters R, D, L, U; otherwise trim, lowercase and match the word table. -/
def specParseKey (key : String) : Except String Direction :=
  if key = "R" then .ok .East
  else if key = "D" then .ok .South
  else if key = "L" then .ok .West
  else if key = "U" then .ok .North
  else
    let normalized := key.trim.toLower
    if normalized = "right" ∨ normalized = "east" then .ok .East
    else if normalized = "down" ∨ normalized = "south" then .ok .South
    else if normalized = "left" ∨ normalized = "west" then .ok .West
    else if normalized = "up" ∨ normalized = "north" then .ok .North
    else .error ("Invalid key \x27" ++ key ++ "\x27. Use Right/Left/Up/Down (or R/L/U/D).")

def specLoadSteps (path : String) : Nat → List PlaybackFileStep → Except String (List Direction)
  | _, [] => .ok []
  | index, step :: rest =>
    match specParseKey step.key with
    | .error e =>
      .error ("Failed to parse playback step " ++ Nat.repr (index + 1) ++ " in " ++
        path ++ ": " ++ e)
    | .ok d => (specLoadSteps path (index + 1) rest).map fun ds => d :: ds

/-- Playback loading as worded by the specification. -/
def specLoadPlayback (path : String) (raw_steps : List PlaybackFileStep) :
    Except String (List Direction) :=
  if raw_steps = [] then .error "Playback input file is empty"
  else specLoadSteps path 0 raw_steps

/-! ### Level Catalog Store (src/levels.rs)

The catalog file layer is modelled by an optional parsed catalog (`none`
meaning the sibling levels.toml does not exist); the result is the write
effect: `none` for no write, `some entries` for a rewrite with the given
content. -/

structure LevelMeta where
  id : Option String
  file : Option String
  author : Option String
  solved : Option Bool
  difficulty : Option String
  tags : Option (List String)
  description : Option String
deriving DecidableEq

/-- The update loop of `update_solved_status`: set `solved` on the first entry
whose `file` equals the level file's name and stop; `none` when no entry
matches (no write happens). -/
def update_solved_entries : List LevelMeta → String → Bool → Option (List LevelMeta)
  | [], _, _ => none
  | e :: rest, fileName, solved =>
    if e.file = some fileName then some ({ e with solved := some solved } :: rest)
    else (update_solved_entries rest fileName solved).map fun l => e :: l

/-- Model of `update_solved_status` from src/levels.rs at the catalog level: the input
is the sibling levels.toml (absent or parsed), the output the rewrite effect. -/
def update_solved_status (catalog : Option (List LevelMeta)) (fileName : String)
    (solved : Bool) : Option (List LevelMeta) :=
  match catalog with
  | none => none
  | some entries => update_solved_entries entries fileName solved

/-! ### Catalog Validator (src/validate_levels_toml.rs) -/

inductive ValidationIssueKind where
  | Io
  | Parse
  | Validation
deriving DecidableEq

def ValidationIssueKind.label : ValidationIssueKind → String
  | .Io => "io"
  | .Parse => "parse"
  | .Validation => "validation"

structure ValidationIssue where
  kind : ValidationIssueKind
  message : String
deriving DecidableEq

def EXIT_CODE_VALIDATION_ERROR : Int := 1
def EXIT_CODE_IO_ERROR : Int := 2
def EXIT_CODE_PARSE_ERROR : Int := 3

def exit_code (issues : List ValidationIssue) : Int :=
  if issues.any fun issue => decide (issue.kind = ValidationIssueKind.Parse) then
    EXIT_CODE_PARSE_ERROR
  else if issues.any fun issue => decide (issue.kind = ValidationIssueKind.Io) then
    EXIT_CODE_IO_ERROR
  else EXIT_CODE_VALIDATION_ERROR

/-- The push_str loop of `format_for_stderr` (0-based enumeration, 1-based
printed index). -/
def formatLines : Nat → List ValidationIssue → String
  | _, [] => ""
  | index, issue :: rest =>
    ("\n  " ++ Nat.repr (index + 1) ++ ". [" ++ issue.kind.label ++ "] " ++ issue.message) ++
      formatLines (index + 1) rest

def format_for_stderr (issues : List ValidationIssue) : String :=
  ("Validation failed with " ++ Nat.repr issues.length ++ " issue(s):") ++
    formatLines 0 issues

/-- Newline-joined lines, used to state the spec's report format. -/
def joinLines : List String → String
  | [] => ""
  | [l] => l
  | l :: rest => l ++ "\n" ++ joinLines rest

def specIssueLine (oneBasedIndex : Nat) (issue : ValidationIssue) : String :=
  "  " ++ Nat.repr oneBasedIndex ++ ". [" ++ issue.kind.label ++ "] " ++ issue.message

def specIssueLines : Nat → List ValidationIssue → List String
  | _, [] => []
  | i, issue :: rest => specIssueLine i issue :: specIssueLines (i + 1) rest

/-- The report text as worded by the specification: the header line followed
by one line per issue, 1-indexed. -/
def specFormatReport (issues : List ValidationIssue) : String :=
  joinLines (("Validation failed with " ++ Nat.repr issues.length ++ " issue(s):") ::
    specIssueLines 1 issues)

/-! ### Level definitions and the Aggregator's totalFood migration
(src/generate.rs)

The level file appears in two coherent views: the typed `LevelDefinition`
parse and the generic JSON-document parse used by the migration.  Modelled
from the spec: the serde_json document layer (third-party, out of repository)
is modelled as an ordered association list, and inserting the fresh
`totalFood` key appends one entry preserving every other entry, per the
spec's "written back with the rest of the document preserved byte-for-byte
except for the new field". -/

structure GridSize where
  width : Int
  height : Int
deriving DecidableEq

structure LevelDefinition where
  id : Nat
  name : String
  difficulty : Option String
  grid_size : GridSize
  snake : List Position
  obstacles : List Position
  food : List Position
  exit : Position
  snake_direction : Direction
  floating_food : List Position
  falling_food : List Position
  stones : List Position
  spikes : List Position
  exit_is_solid : Option Bool
  total_food : Option Nat
deriving DecidableEq

inductive JVal where
  | num : Nat → JVal
  | str : String → JVal
  | bool : Bool → JVal
  | null : JVal
deriving DecidableEq

abbrev JsonDoc := List (String × JVal)

def jsonContainsKey (doc : JsonDoc) (key : String) : Bool :=
  doc.any fun e => decide (e.1 = key)

def jsonLookup (doc : JsonDoc) (key : String) : Option JVal :=
  (doc.find? fun e => decide (e.1 = key)).map fun e => e.2

/-- Model of `derive_total_food`: the source sums the three list lengths and
converts with the wrapping cast `total as u32`, modelled by reduction modulo
2^32 (the identity whenever the sum fits in 32 bits). -/
def derive_total_food (level : LevelDefinition) : Nat :=
  (level.food.length + level.floating_food.length + level.falling_food.length) % 2 ^ 32

/-- Model of `ensure_total_food`: fills in a missing `totalFood`, returning the derived
value when a migration is needed. -/
def ensure_total_food (level : LevelDefinition) : LevelDefinition × Option Nat :=
  match level.total_food with
  | some _ => (level, none)
  | none =>
    let derived := derive_total_food level
    ({ level with total_food := some derived }, some derived)

/-- Model of `migrate_missing_total_food` on the parsed document: `none` means the file
is not rewritten, `some doc2` that it is rewritten with content `doc2`. -/
def migrate_missing_total_food (doc : JsonDoc) (total_food : Nat) : Option JsonDoc :=
  if jsonContainsKey doc "totalFood" then none
  else some (doc ++ [("totalFood", JVal.num total_food)])

/-- Model of `load_level` from src/generate.rs: the typed parse plus the one-time
migration write-back.  Returns the in-memory level and the write effect on
the file. -/
def load_level (doc : JsonDoc) (level : LevelDefinition) :
    LevelDefinition × Option JsonDoc :=
  match ensure_total_food level with
  | (level2, none) => (level2, none)
  | (level2, some derived) => (level2, migrate_missing_total_food doc derived)

/-! ### Legacy ID Migration (src/migration.rs) -/

/-- Rust unsigned-integer parsing accepts one optional leading plus sign. -/
def stripPlus : List Char → List Char
  | '+' :: rest => rest
  | l => l

/-- Model of `str::parse::<u64>()`: an optional plus, then one or more ASCII digits,
rejecting values that do not fit in 64 bits. -/
def parseU64 (s : String) : Option Nat :=
  let digits := stripPlus s.data
  if digits ≠ [] ∧ digits.all Char.isDigit then
    let v := digitsVal digits
    if v ≤ 2 ^ 64 - 1 then some v else none
  else none

/-- Rust's `str::split(sep)`: splitting an empty string yields one empty
part, a separator at either end yields an empty part there. -/
def splitParts (sep : Char) : List Char → List (List Char)
  | [] => [[]]
  | c :: rest =>
    let ps := splitParts sep rest
    if c = sep then [] :: ps
    else
      match ps with
      | [] => [[c]]
      | p :: rest2 => (c :: p) :: rest2

def parse_string_id (id : String) : Except String Nat :=
  if ((splitParts '-' id.data).map fun l => String.mk l).length ≠ 2 then
    .error ("Invalid ID format: expected \x27timestamp-suffix\x27, got \x27" ++ id ++ "\x27")
  else
    match parseU64 (((splitParts '-' id.data).map fun l => String.mk l).headD "") with
    | none =>
      .error ("Invalid timestamp: \x27" ++
        ((splitParts '-' id.data).map fun l => String.mk l).headD "" ++
        "\x27 is not a valid number")
    | some v =>
      if v > 4294967295 then
        .error ("Timestamp " ++ Nat.repr v ++ " exceeds u32::MAX (4294967295)")
      else .ok v

/-! ### Name Generator (src/name_generator.rs)

`obstacle_density` is an f32 in the source; it is modelled as a rational (the
claims under verification do not depend on rounding of the density, only on
order comparisons with the literal thresholds). -/

structure LevelMechanics where
  has_floating_food : Bool
  has_falling_food : Bool
  has_stones : Bool
  has_spikes : Bool
deriving DecidableEq

structure ComplexityMetrics where
  obstacle_density : ℚ
  food_count : Nat
  grid_area : Int
deriving DecidableEq

structure LevelAnalysis where
  mechanics : LevelMechanics
  pattern : ObstaclePattern
  complexity : ComplexityMetrics
deriving DecidableEq

/-- The ordered word-collection steps 1-5 of `generate_name`. -/
def nameParts (analysis : LevelAnalysis) : List String :=
  let mech :=
    (if analysis.mechanics.has_floating_food then ["Floating"] else []) ++
    (if analysis.mechanics.has_falling_food then ["Falling"] else []) ++
    (if analysis.mechanics.has_stones then ["Stone"] else []) ++
    (if analysis.mechanics.has_spikes then ["Spike"] else [])
  let withPattern := mech ++
    (match analysis.pattern with
     | .VerticalWall => ["Tower"]
     | .HorizontalWall => ["Bridge"]
     | .Scattered =>
       if analysis.complexity.obstacle_density > 0 then ["Islands"] else []
     | .None => [])
  let withComplexity := withPattern ++
    (if analysis.complexity.obstacle_density > 15 / 100 then ["Dense"]
     else if analysis.complexity.food_count > 5 then ["Feast"] else [])
  let ensured :=
    if withComplexity = [] then
      if analysis.complexity.obstacle_density > 1 / 10 then ["Maze"] else ["Simple"]
    else withComplexity
  ensured.take 4

/-- The candidate name before uniquification: the collected words joined with
single spaces. -/
def baseName (analysis : LevelAnalysis) : String :=
  String.intercalate " " (nameParts analysis)

/-- The uniquification while-loop, trying `base ++ " " ++ counter` for
counter = c, c+1, ...; the fuel supplied by `uniquify` provably suffices. -/
def uniquifyFrom (used : List String) (base : String) : Nat → Nat → String
  | 0, counter => base ++ " " ++ Nat.repr counter
  | fuel + 1, counter =>
    let name := base ++ " " ++ Nat.repr counter
    if name ∈ used then uniquifyFrom used base fuel (counter + 1) else name

def uniquify (used : List String) (base : String) : String :=
  if base ∈ used then uniquifyFrom used base (used.length + 1) 2 else base

/-- Model of `generate_name`: the used-names set (modelled as a list with membership
semantics) is threaded explicitly; the returned pair is the generated name
and the updated set, into which the name has been inserted. -/
def generate_name (analysis : LevelAnalysis) (used : List String) :
    String × List String :=
  let name := uniquify used (baseName analysis)
  (name, name :: used)

/-- Concrete catalog entries used by closed witness statements. -/
def sampleMeta (fileName : String) (solvedFlag : Option Bool) (desc : Option String) :
    LevelMeta :=
  ⟨none, some fileName, none, solvedFlag, none, none, desc⟩

/-- A concrete level (1 food, 1 floating food, 2 falling food, no stored
totalFood) used by closed witness statements. -/
def sampleLevel : LevelDefinition :=
  ⟨1, "Test Level", none, ⟨5, 5⟩, [⟨0, 0⟩], [], [⟨0, 1⟩], ⟨4, 4⟩, Direction.East,
    [⟨1, 1⟩], [⟨2, 2⟩, ⟨3, 3⟩], [], [], none, none⟩

/-- A concrete level with 2^32 food items and no stored totalFood, exhibiting
the wrapping `as u32` cast of the derived total. -/
def hugeLevel : LevelDefinition :=
  ⟨1, "Huge", none, ⟨5, 5⟩, [⟨0, 0⟩], [], List.replicate 4294967296 ⟨0, 1⟩, ⟨4, 4⟩,
    Direction.East, [], [], [], [], none, none⟩

/-- A two-state toy engine (state 0 Playing, one East move to the completing
state 1) used by closed witness statements. -/
def lineStep : Fin 2 → Direction → Option (Fin 2) :=
  fun i d => if i = 0 ∧ d = Direction.East then some 1 else none

def lineStatus : Fin 2 → GameStatus :=
  fun i => if i = 0 then GameStatus.Playing else GameStatus.LevelComplete

/-! ## Theorems -/

/-! ### Level Analysis: claim C3 -/

theorem length_filter_eq_count (f : Position → Int) (l : List Position) (x : Int) :
    (l.filter fun p => f p = x).length = (l.map f).count x := by
  induction l with
  | nil => rfl
  | cons a l ih =>
    by_cases h : f a = x <;>
      simp [List.filter_cons, h, List.count_cons, ih, beq_iff_eq]

theorem foldr_max_dedup (g : Int → Nat) (l : List Int) :
    ((l.dedup.map g).foldr max 0) = l.toFinset.sup g := by
  induction l with
  | nil => simp
  | cons a l ih =>
    by_cases h : a ∈ l
    · rw [List.dedup_cons_of_mem h, List.toFinset_cons,
        Finset.insert_eq_self.mpr (List.mem_toFinset.mpr h)]
      exact ih
    · rw [List.dedup_cons_of_not_mem h, List.toFinset_cons, Finset.sup_insert]
      simp [ih, sup_eq_max]

theorem maxVerticalCount_eq_specMaxShare (obstacles : List Position) :
    maxVerticalCount obstacles = specMaxShare (obstacles.map Position.x) := by
  unfold maxVerticalCount specMaxShare
  rw [foldr_max_dedup]
  apply Finset.sup_congr rfl
  intro x _
  exact length_filter_eq_count Position.x obstacles x

theorem maxHorizontalCount_eq_specMaxShare (obstacles : List Position) :
    maxHorizontalCount obstacles = specMaxShare (obstacles.map Position.y) := by
  unfold maxHorizontalCount specMaxShare
  rw [foldr_max_dedup]
  apply Finset.sup_congr rfl
  intro y _
  exact length_filter_eq_count Position.y obstacles y

/-- C3: `detect_obstacle_pattern` returns None on the empty list, else
VerticalWall when the maximum number of obstacles sharing one x-coordinate
reaches the truncated threshold `obstacle_count * 4 / 10` (checked first),
else HorizontalWall by the symmetric y-test, else Scattered — stated as
agreement with the specification's own formulation of the rule. -/
theorem detect_obstacle_pattern_matches_spec (obstacles : List Position) :
    detect_obstacle_pattern obstacles = specObstaclePattern obstacles := by
  unfold detect_obstacle_pattern specObstaclePattern
  rw [maxVerticalCount_eq_specMaxShare, maxHorizontalCount_eq_specMaxShare]

/-! ### Level Catalog Store: claims C5 and C10 -/

theorem update_solved_entries_cons (a : LevelMeta) (l : List LevelMeta) (fn : String)
    (b : Bool) :
    update_solved_entries (a :: l) fn b =
      if a.file = some fn then some ({ a with solved := some b } :: l)
      else (update_solved_entries l fn b).map fun l2 => a :: l2 := rfl

theorem update_solved_entries_of_no_match (l : List LevelMeta) (fn : String) (b : Bool)
    (h : ∀ e ∈ l, e.file ≠ some fn) : update_solved_entries l fn b = none := by
  induction l with
  | nil => rfl
  | cons e rest ih =>
    have he : e.file ≠ some fn := h e (by simp)
    rw [update_solved_entries_cons, if_neg he, ih fun x hx => h x (by simp [hx])]
    rfl

theorem update_solved_entries_first_match (pre : List LevelMeta) (e : LevelMeta)
    (post : List LevelMeta) (fn : String) (b : Bool)
    (hpre : ∀ x ∈ pre, x.file ≠ some fn) (he : e.file = some fn) :
    update_solved_entries (pre ++ e :: post) fn b =
      some (pre ++ { e with solved := some b } :: post) := by
  induction pre with
  | nil => simp [update_solved_entries_cons, he]
  | cons a pre ih =>
    have ha : a.file ≠ some fn := hpre a (by simp)
    rw [List.cons_append, update_solved_entries_cons, if_neg ha,
      ih fun x hx => hpre x (by simp [hx])]
    rfl

/-- C5: `update_solved_status` is a no-op when the sibling levels.toml does
not exist or no entry's `file` equals the level file's name; when a matching
entry exists (the catalog splits as `pre ++ e :: post` with no match in
`pre`), only that entry's `solved` field is set and everything else is
rewritten unchanged. -/
theorem update_solved_status_frame (entries : List LevelMeta) (fileName : String)
    (solved : Bool) :
    update_solved_status none fileName solved = none ∧
    ((∀ e ∈ entries, e.file ≠ some fileName) →
      update_solved_status (some entries) fileName solved = none) ∧
    (∀ pre e post, entries = pre ++ e :: post →
      (∀ x ∈ pre, x.file ≠ some fileName) → e.file = some fileName →
      update_solved_status (some entries) fileName solved =
        some (pre ++ { e with solved := some solved } :: post)) := by
  refine ⟨rfl, ?_, ?_⟩
  · intro h
    exact update_solved_entries_of_no_match entries fileName solved h
  · intro pre e post hsplit hpre he
    rw [hsplit]
    exact update_solved_entries_first_match pre e post fileName solved hpre he

theorem update_solved_status_frame_witness :
    ((∀ x ∈ [sampleMeta "a.json" none none], x.file ≠ some "b.json") ∧
      (sampleMeta "b.json" (some false) (some "Old")).file = some "b.json") ∧
    update_solved_status
      (some [sampleMeta "a.json" none none, sampleMeta "b.json" (some false) (some "Old")])
      "b.json" true =
      some [sampleMeta "a.json" none none, sampleMeta "b.json" (some true) (some "Old")] := by
  refine ⟨⟨by decide, rfl⟩, ?_⟩
  exact (update_solved_status_frame _ "b.json" true).2.2
    [sampleMeta "a.json" none none] (sampleMeta "b.json" (some false) (some "Old"))
    [] rfl (by decide) rfl

/-- C10: with duplicate matching entries, only the first one in catalog order
is modified; every later duplicate (here `e2`) and all other entries are left
completely unchanged. -/
theorem update_solved_status_first_match_only (pre : List LevelMeta) (e : LevelMeta)
    (mid : List LevelMeta) (e2 : LevelMeta) (post : List LevelMeta) (fn : String)
    (b : Bool) (hpre : ∀ x ∈ pre, x.file ≠ some fn) (he : e.file = some fn)
    (he2 : e2.file = some fn) :
    update_solved_status (some (pre ++ e :: (mid ++ e2 :: post))) fn b =
      some (pre ++ { e with solved := some b } :: (mid ++ e2 :: post)) :=
  update_solved_entries_first_match pre e (mid ++ e2 :: post) fn b hpre he

theorem update_solved_status_first_match_only_witness :
    ((sampleMeta "a.json" (some false) none).file = some "a.json") ∧
    update_solved_status
      (some [sampleMeta "a.json" (some false) none, sampleMeta "a.json" (some false) none])
      "a.json" true =
      some [sampleMeta "a.json" (some true) none, sampleMeta "a.json" (some false) none] := by
  refine ⟨rfl, ?_⟩
  exact update_solved_status_first_match_only [] _ [] _ [] "a.json" true
    (by simp) rfl rfl

/-! ### Catalog Validator: claim C6 -/

theorem formatLines_eq_joinLines (issues : List ValidationIssue) :
    ∀ (i : Nat) (hdr : String),
      hdr ++ formatLines i issues = joinLines (hdr :: specIssueLines (i + 1) issues) := by
  induction issues with
  | nil => intro i hdr; simp [formatLines, specIssueLines, joinLines]
  | cons issue rest ih =>
    intro i hdr
    have hjoin : joinLines (hdr :: specIssueLine (i + 1) issue ::
        specIssueLines (i + 1 + 1) rest) =
        hdr ++ "\n" ++ joinLines (specIssueLine (i + 1) issue ::
          specIssueLines (i + 1 + 1) rest) := rfl
    have hrec := ih (i + 1) (specIssueLine (i + 1) issue)
    simp only [specIssueLines]
    rw [hjoin, ← hrec]
    apply String.ext
    have hnl : ("\n  " : String).data = ("\n" : String).data ++ ("  " : String).data := rfl
    simp [formatLines, specIssueLine, hnl, List.append_assoc]

theorem format_for_stderr_eq_spec (issues : List ValidationIssue) :
    format_for_stderr issues = specFormatReport issues := by
  unfold format_for_stderr specFormatReport
  exact formatLines_eq_joinLines issues 0 _

/-- C6: for every non-empty validation report the exit code is 3 exactly when
a Parse issue is present, else 2 exactly when an Io issue is present, else 1
exactly when only Validation issues are present; and the report text is
exactly the header line followed by one 1-indexed line per issue in the
spec's format. -/
theorem validation_report_exit_code_and_format (issues : List ValidationIssue)
    (hne : issues ≠ []) :
    (exit_code issues = 3 ↔ ∃ i ∈ issues, i.kind = ValidationIssueKind.Parse) ∧
    (exit_code issues = 2 ↔
      ((∀ i ∈ issues, i.kind ≠ ValidationIssueKind.Parse) ∧
        ∃ i ∈ issues, i.kind = ValidationIssueKind.Io)) ∧
    (exit_code issues = 1 ↔ ∀ i ∈ issues, i.kind = ValidationIssueKind.Validation) ∧
    format_for_stderr issues = specFormatReport issues := by
  have hany : ∀ (k : ValidationIssueKind),
      (issues.any fun issue => decide (issue.kind = k)) = true ↔
        ∃ i ∈ issues, i.kind = k := by
    intro k
    simp [List.any_eq_true]
  have htri : ∀ i ∈ issues, i.kind ≠ ValidationIssueKind.Parse →
      i.kind ≠ ValidationIssueKind.Io → i.kind = ValidationIssueKind.Validation := by
    intro i _ h1 h2
    cases hk : i.kind
    · exact absurd hk h2
    · exact absurd hk h1
    · rfl
  unfold exit_code EXIT_CODE_PARSE_ERROR EXIT_CODE_IO_ERROR EXIT_CODE_VALIDATION_ERROR
  by_cases hp : (issues.any fun issue => decide (issue.kind = ValidationIssueKind.Parse)) = true
  · rw [if_pos hp]
    have hex := (hany ValidationIssueKind.Parse).mp hp
    refine ⟨⟨fun _ => hex, fun _ => rfl⟩, ?_, ?_, format_for_stderr_eq_spec issues⟩
    · constructor
      · intro h; omega
      · rintro ⟨hall, -⟩
        obtain ⟨i, hi, hik⟩ := hex
        exact absurd hik (hall i hi)
    · constructor
      · intro h; omega
      · intro hall
        obtain ⟨i, hi, hik⟩ := hex
        have := hall i hi
        rw [this] at hik
        exact absurd hik (by decide)
  · rw [if_neg hp]
    have hnp : ∀ i ∈ issues, i.kind ≠ ValidationIssueKind.Parse := by
      intro i hi hik
      exact hp ((hany ValidationIssueKind.Parse).mpr ⟨i, hi, hik⟩)
    by_cases hio : (issues.any fun issue => decide (issue.kind = ValidationIssueKind.Io)) = true
    · rw [if_pos hio]
      have hex := (hany ValidationIssueKind.Io).mp hio
      refine ⟨?_, ⟨fun _ => ⟨hnp, hex⟩, fun _ => rfl⟩, ?_, format_for_stderr_eq_spec issues⟩
      · constructor
        · intro h; omega
        · rintro ⟨i, hi, hik⟩
          exact absurd hik (hnp i hi)
      · constructor
        · intro h; omega
        · intro hall
          obtain ⟨i, hi, hik⟩ := hex
          have := hall i hi
          rw [this] at hik
          exact absurd hik (by decide)
    · rw [if_neg hio]
      have hnio : ∀ i ∈ issues, i.kind ≠ ValidationIssueKind.Io := by
        intro i hi hik
        exact hio ((hany ValidationIssueKind.Io).mpr ⟨i, hi, hik⟩)
      refine ⟨?_, ?_, ?_, format_for_stderr_eq_spec issues⟩
      · constructor
        · intro h; omega
        · rintro ⟨i, hi, hik⟩
          exact absurd hik (hnp i hi)
      · constructor
        · intro h; omega
        · rintro ⟨-, i, hi, hik⟩
          exact absurd hik (hnio i hi)
      · exact ⟨fun _ => fun i hi => htri i hi (hnp i hi) (hnio i hi), fun _ => rfl⟩

theorem validation_report_exit_code_and_format_witness :
    ([({ kind := ValidationIssueKind.Validation, message := "m1" } : ValidationIssue),
      { kind := ValidationIssueKind.Io, message := "m2" }] ≠ []) ∧
    exit_code [({ kind := ValidationIssueKind.Validation, message := "m1" } : ValidationIssue),
      { kind := ValidationIssueKind.Io, message := "m2" }] = 2 := by
  constructor
  · decide
  · exact (validation_report_exit_code_and_format _ (by decide)).2.1.mpr
      ⟨by decide, ⟨{ kind := ValidationIssueKind.Io, message := "m2" }, by decide, rfl⟩⟩

/-! ### Playback Codec: claim C4 -/

theorem parse_key_eq_specParseKey (key : String) : parse_key key = specParseKey key := by
  obtain ⟨l⟩ := key
  match l with
  | [] =>
    have h1 : (⟨[]⟩ : String) ≠ "R" := by decide
    have h2 : (⟨[]⟩ : String) ≠ "D" := by decide
    have h3 : (⟨[]⟩ : String) ≠ "L" := by decide
    have h4 : (⟨[]⟩ : String) ≠ "U" := by decide
    have hL : parse_key ⟨[]⟩ = parse_key.parseKeyFallback ⟨[]⟩ := rfl
    rw [hL]
    unfold specParseKey
    rw [if_neg h1, if_neg h2, if_neg h3, if_neg h4]
    rfl
  | [ch] =>
    by_cases hch : ch = 'R' ∨ ch = 'D' ∨ ch = 'L' ∨ ch = 'U'
    · have hL : parse_key ⟨[ch]⟩ = parse_string_char ch := by
        show (if ch = 'R' ∨ ch = 'D' ∨ ch = 'L' ∨ ch = 'U' then parse_string_char ch
          else parse_key.parseKeyFallback ⟨[ch]⟩) = parse_string_char ch
        rw [if_pos hch]
      rw [hL]
      rcases hch with h | h | h | h <;> subst h <;> rfl
    · push_neg at hch
      obtain ⟨hr, hd, hl, hu⟩ := hch
      have hsingle : ∀ c r : Char, (⟨[c]⟩ : String) = (⟨[r]⟩ : String) → c = r := by
        intro c r h
        have h5 : [c] = [r] := congrArg String.data h
        simpa using h5
      have h1 : (⟨[ch]⟩ : String) ≠ "R" := fun h => hr (hsingle ch 'R' h)
      have h2 : (⟨[ch]⟩ : String) ≠ "D" := fun h => hd (hsingle ch 'D' h)
      have h3 : (⟨[ch]⟩ : String) ≠ "L" := fun h => hl (hsingle ch 'L' h)
      have h4 : (⟨[ch]⟩ : String) ≠ "U" := fun h => hu (hsingle ch 'U' h)
      have hL : parse_key ⟨[ch]⟩ = parse_key.parseKeyFallback ⟨[ch]⟩ := by
        show (if ch = 'R' ∨ ch = 'D' ∨ ch = 'L' ∨ ch = 'U' then parse_string_char ch
          else parse_key.parseKeyFallback ⟨[ch]⟩) = parse_key.parseKeyFallback ⟨[ch]⟩
        rw [if_neg (by push_neg; exact ⟨hr, hd, hl, hu⟩)]
      rw [hL]
      unfold specParseKey
      rw [if_neg h1, if_neg h2, if_neg h3, if_neg h4]
      rfl
  | c1 :: c2 :: tl =>
    have hlen : ∀ s : String, s.data.length = 1 → (⟨c1 :: c2 :: tl⟩ : String) ≠ s := by
      intro s hs h
      rw [← h] at hs
      simp [List.length_cons] at hs
    have hL : parse_key ⟨c1 :: c2 :: tl⟩ =
        parse_key.parseKeyFallback ⟨c1 :: c2 :: tl⟩ := rfl
    rw [hL]
    unfold specParseKey
    rw [if_neg (hlen "R" rfl), if_neg (hlen "D" rfl), if_neg (hlen "L" rfl),
      if_neg (hlen "U" rfl)]
    rfl

theorem loadSteps_eq_specLoadSteps (path : String) (steps : List PlaybackFileStep) :
    ∀ i, loadSteps path i steps = specLoadSteps path i steps := by
  induction steps with
  | nil => intro i; rfl
  | cons step rest ih =>
    intro i
    show (match parse_key step.key with
      | .error e =>
        Except.error ("Failed to parse playback step " ++ Nat.repr (i + 1) ++ " in " ++
          path ++ ": " ++ e)
      | .ok d => (loadSteps path (i + 1) rest).map fun ds => d :: ds) = _
    rw [parse_key_eq_specParseKey, ih (i + 1)]
    rfl

/-- C4: playback loading rejects the empty step list with the
empty-playback error, and parses every step's key with the claimed
precedence (exact single characters R, D, L, U first, then the
trimmed-lowercased word table), any other key failing with an error naming
the invalid key wrapped with the 1-based step index and the file path —
stated as agreement with the specification's own formulation. -/
theorem load_playback_directions_matches_spec (path : String)
    (raw_steps : List PlaybackFileStep) :
    load_playback_directions path raw_steps = specLoadPlayback path raw_steps := by
  unfold load_playback_directions specLoadPlayback
  by_cases h : raw_steps = []
  · rw [if_pos h, if_pos h]
  · rw [if_neg h, if_neg h]
    exact loadSteps_eq_specLoadSteps path raw_steps 0

/-! ### Aggregator totalFood migration: claim C7 -/

theorem jsonContainsKey_eq_false_iff (doc : JsonDoc) (k : String) :
    jsonContainsKey doc k = false ↔ ∀ e ∈ doc, e.1 ≠ k := by
  simp [jsonContainsKey, List.any_eq_false]

theorem jsonLookup_append_new (doc : JsonDoc) (k0 : String) (v : JVal)
    (k : String) (hk : k ≠ k0) :
    jsonLookup (doc ++ [(k0, v)]) k = jsonLookup doc k := by
  unfold jsonLookup
  induction doc with
  | nil =>
    rw [List.nil_append,
      List.find?_cons_of_neg _ (by simp [Ne.symm hk])]
  | cons e rest ih =>
    by_cases he : e.1 = k
    · rw [List.cons_append, List.find?_cons_of_pos _ (by simp [he]),
        List.find?_cons_of_pos _ (by simp [he])]
    · rw [List.cons_append, List.find?_cons_of_neg _ (by simp [he]),
        List.find?_cons_of_neg _ (by simp [he])]
      exact ih

theorem jsonLookup_append_self (doc : JsonDoc) (k0 : String) (v : JVal)
    (h : ∀ e ∈ doc, e.1 ≠ k0) :
    jsonLookup (doc ++ [(k0, v)]) k0 = some v := by
  unfold jsonLookup
  induction doc with
  | nil =>
    rw [List.nil_append, List.find?_cons_of_pos _ (by simp)]
    rfl
  | cons e rest ih =>
    have he : e.1 ≠ k0 := h e (by simp)
    rw [List.cons_append, List.find?_cons_of_neg _ (by simp [he])]
    exact ih fun x hx => h x (by simp [hx])

theorem derive_total_food_def (level : LevelDefinition) :
    derive_total_food level =
      (level.food.length + level.floating_food.length +
        level.falling_food.length) % 2 ^ 32 := rfl

theorem load_level_total_food_of_none (doc : JsonDoc) (level : LevelDefinition)
    (h : level.total_food = none) :
    (load_level doc level).1.total_food = some (derive_total_food level) := by
  unfold load_level ensure_total_food
  rw [h]

/-- C7 counterexample: a level lacking `totalFood` whose three food lists
total 2^32 items is loaded with `totalFood = 0` — the source's wrapping
`total as u32` cast — not with the plain sum 4294967296 the claim asserts. -/
theorem load_level_total_food_truncation_counterexample :
    hugeLevel.total_food = none ∧
    hugeLevel.food.length + hugeLevel.floating_food.length +
      hugeLevel.falling_food.length = 4294967296 ∧
    (load_level [] hugeLevel).1.total_food = some 0 ∧
    (0 : Nat) ≠ 4294967296 := by
  have hfood : hugeLevel.food = List.replicate 4294967296 ⟨0, 1⟩ := rfl
  have hflo : hugeLevel.floating_food = [] := rfl
  have hfal : hugeLevel.falling_food = [] := rfl
  have hlen : hugeLevel.food.length + hugeLevel.floating_food.length +
      hugeLevel.falling_food.length = 4294967296 := by
    rw [hfood, hflo, hfal, List.length_replicate]
    norm_num
  have hderive : derive_total_food hugeLevel = 0 := by
    rw [derive_total_food_def hugeLevel, hlen]
    norm_num
  refine ⟨rfl, hlen, ?_, by norm_num⟩
  rw [load_level_total_food_of_none [] hugeLevel rfl, hderive]

/-- C7 (amended): loading a level file without `totalFood` yields the level
with `totalFood` equal to `len(food) + len(floatingFood) + len(fallingFood)`
reduced modulo 2^32 by the source's `as u32` cast — the plain sum whenever it
fits in 32 bits — and rewrites the file to the same document with exactly the
one new `totalFood` entry added (every other key's value preserved); a file
that already carries `totalFood` is loaded with the stored value and the file
is not rewritten. -/
theorem load_level_total_food_migration (doc : JsonDoc) (level : LevelDefinition)
    (hcoh : level.total_food = none → jsonContainsKey doc "totalFood" = false) :
    (level.total_food = none →
      (load_level doc level).1 =
        { level with total_food := some (derive_total_food level) } ∧
      (load_level doc level).1.total_food =
        some ((level.food.length + level.floating_food.length +
          level.falling_food.length) % 2 ^ 32) ∧
      (level.food.length + level.floating_food.length +
          level.falling_food.length < 2 ^ 32 →
        (load_level doc level).1.total_food =
          some (level.food.length + level.floating_food.length +
            level.falling_food.length)) ∧
      (load_level doc level).2 =
        some (doc ++ [("totalFood", JVal.num (derive_total_food level))]) ∧
      (∀ k, k ≠ "totalFood" →
        jsonLookup (doc ++ [("totalFood", JVal.num (derive_total_food level))]) k =
          jsonLookup doc k) ∧
      jsonLookup (doc ++ [("totalFood", JVal.num (derive_total_food level))])
        "totalFood" = some (JVal.num (derive_total_food level))) ∧
    (∀ n, level.total_food = some n →
      (load_level doc level).1 = level ∧ (load_level doc level).2 = none) := by
  constructor
  · intro hnone
    have hload : load_level doc level =
        ({ level with total_food := some (derive_total_food level) },
          migrate_missing_total_food doc (derive_total_food level)) := by
      unfold load_level ensure_total_food
      rw [hnone]
    have hmig : migrate_missing_total_food doc (derive_total_food level) =
        some (doc ++ [("totalFood", JVal.num (derive_total_food level))]) := by
      unfold migrate_missing_total_food
      rw [hcoh hnone]
      simp
    have hfield : (load_level doc level).1.total_food =
        some ((level.food.length + level.floating_food.length +
          level.falling_food.length) % 2 ^ 32) := by
      rw [hload]
      rfl
    refine ⟨by rw [hload], hfield, ?_, by rw [hload, hmig], ?_, ?_⟩
    · intro hsmall
      rw [hfield, Nat.mod_eq_of_lt hsmall]
    · intro k hk
      exact jsonLookup_append_new doc "totalFood" _ k hk
    · exact jsonLookup_append_self doc "totalFood" _
        ((jsonContainsKey_eq_false_iff doc "totalFood").mp (hcoh hnone))
  · intro n hsome
    have hload : load_level doc level = (level, none) := by
      unfold load_level ensure_total_food
      rw [hsome]
    exact ⟨by rw [hload], by rw [hload]⟩

theorem load_level_total_food_migration_witness :
    (sampleLevel.total_food = none →
      jsonContainsKey [("id", JVal.num 1), ("name", JVal.str "Test Level")]
        "totalFood" = false) ∧
    (load_level [("id", JVal.num 1), ("name", JVal.str "Test Level")]
        sampleLevel).1.total_food = some 4 ∧
    (load_level [("id", JVal.num 1), ("name", JVal.str "Test Level")]
        sampleLevel).2 =
      some [("id", JVal.num 1), ("name", JVal.str "Test Level"),
        ("totalFood", JVal.num 4)] := by
  refine ⟨fun _ => by decide, ?_, ?_⟩
  · exact ((load_level_total_food_migration _ sampleLevel
      (fun _ => by decide)).1 rfl).2.2.1 (by decide)
  · exact ((load_level_total_food_migration _ sampleLevel
      (fun _ => by decide)).1 rfl).2.2.2.1

/-! ### Legacy ID Migration: claim C8 (corrected) -/

/-- C8 counterexample: the numeric first part 18446744073709551616 (= 2^64)
exceeds 4294967295, yet `parse_string_id` reports the invalid-timestamp
error, not the exceeds-maximum error, because the intermediate u64 parse
already fails. -/
theorem parse_string_id_u64_overflow_counterexample :
    ((splitParts '-' ("18446744073709551616-x" : String).data).length = 2 ∧
      (stripPlus ("18446744073709551616" : String).data).all Char.isDigit = true ∧
      4294967295 < digitsVal (stripPlus ("18446744073709551616" : String).data)) ∧
    parse_string_id "18446744073709551616-x" =
      .error ("Invalid timestamp: \x2718446744073709551616\x27 is not a valid number") ∧
    parse_string_id "18446744073709551616-x" ≠
      .error ("Timestamp 18446744073709551616 exceeds u32::MAX (4294967295)") := by
  have hA : parse_string_id "18446744073709551616-x" =
      .error ("Invalid timestamp: \x2718446744073709551616\x27 is not a valid number") :=
    rfl
  refine ⟨⟨by decide, by decide, by decide⟩, hA, ?_⟩
  rw [hA]
  intro h
  injection h with h2
  exact absurd h2 (by decide)

/-- C8 (amended): `parse_string_id` fails with the invalid-format error
unless splitting on hyphens yields exactly two parts; with two parts, a
first part that parses as an unsigned 64-bit integer at most 4294967295 is
returned, one that parses as u64 but exceeds 4294967295 fails with the
exceeds-maximum error, and any other first part — non-numeric or too large
even for the intermediate u64 parse — fails with the invalid-timestamp
error. -/
theorem parse_string_id_classification (id : String) :
    (((splitParts '-' id.data).map fun l => String.mk l).length ≠ 2 →
      parse_string_id id =
        .error ("Invalid ID format: expected \x27timestamp-suffix\x27, got \x27" ++
          id ++ "\x27")) ∧
    (((splitParts '-' id.data).map fun l => String.mk l).length = 2 →
      (∀ v, parseU64 (((splitParts '-' id.data).map fun l => String.mk l).headD "") =
          some v → v ≤ 4294967295 → parse_string_id id = .ok v) ∧
      (∀ v, parseU64 (((splitParts '-' id.data).map fun l => String.mk l).headD "") =
          some v → 4294967295 < v → parse_string_id id =
        .error ("Timestamp " ++ Nat.repr v ++ " exceeds u32::MAX (4294967295)")) ∧
      (parseU64 (((splitParts '-' id.data).map fun l => String.mk l).headD "") = none →
        parse_string_id id =
          .error ("Invalid timestamp: \x27" ++
            ((splitParts '-' id.data).map fun l => String.mk l).headD "" ++
            "\x27 is not a valid number"))) := by
  constructor
  · intro h
    unfold parse_string_id
    rw [if_pos h]
  · intro h
    refine ⟨?_, ?_, ?_⟩
    · intro v hv hle
      unfold parse_string_id
      rw [if_neg (by omega), hv]
      exact if_neg (by omega)
    · intro v hv hgt
      unfold parse_string_id
      rw [if_neg (by omega), hv]
      exact if_pos (by omega)
    · intro hv
      unfold parse_string_id
      rw [if_neg (by omega), hv]

theorem parse_string_id_classification_witness :
    ((splitParts '-' ("1234567890-g36bwe" : String).data).map
        (fun l => String.mk l)).length = 2 ∧
    parseU64 "1234567890" = some 1234567890 ∧
    parse_string_id "1234567890-g36bwe" = .ok 1234567890 := by
  refine ⟨by decide, by decide, ?_⟩
  exact ((parse_string_id_classification "1234567890-g36bwe").2 (by decide)).1
    1234567890 (by decide) (by decide)

/-! ### Name Generator: claim C9

The uniquification loop composes names with a rendered decimal counter, so
its correctness rests on injectivity of `Nat.repr`, proved here against
core's `Nat.toDigitsCore`. -/

theorem repDigits_lt (n : Nat) (h : n < 10) : repDigits n = [Nat.digitChar n] := by
  rw [repDigits, if_pos h]

theorem repDigits_ge (n : Nat) (h : ¬n < 10) :
    repDigits n = repDigits (n / 10) ++ [Nat.digitChar (n % 10)] := by
  rw [repDigits]
  rw [if_neg h]

theorem toDigitsCore_eq_repDigits (n : Nat) :
    ∀ fuel ds, n < fuel → Nat.toDigitsCore 10 fuel n ds = repDigits n ++ ds := by
  induction n using Nat.strong_induction_on with
  | _ n ih =>
    intro fuel ds hfuel
    match fuel with
    | 0 => omega
    | f + 1 =>
      show (if n / 10 = 0 then Nat.digitChar (n % 10) :: ds
        else Nat.toDigitsCore 10 f (n / 10) (Nat.digitChar (n % 10) :: ds)) = _
      by_cases h0 : n / 10 = 0
      · have hn : n < 10 := by omega
        rw [if_pos h0, repDigits_lt n hn, Nat.mod_eq_of_lt hn]
        rfl
      · have hdiv : n / 10 < n := by omega
        rw [if_neg h0, ih (n / 10) hdiv f (Nat.digitChar (n % 10) :: ds) (by omega),
          repDigits_ge n (by omega), List.append_assoc]
        rfl

theorem digitChar_toNat (n : Nat) (h : n < 10) : (Nat.digitChar n).toNat = n + 48 := by
  have hfin : ∀ m : Fin 10, (Nat.digitChar m.val).toNat = m.val + 48 := by decide
  exact hfin ⟨n, h⟩

theorem digitsVal_append_one (l : List Char) (c : Char) :
    digitsVal (l ++ [c]) = 10 * digitsVal l + (c.toNat - 48) := by
  simp [digitsVal, List.foldl_append]

theorem digitsVal_repDigits (n : Nat) : digitsVal (repDigits n) = n := by
  induction n using Nat.strong_induction_on with
  | _ n ih =>
    by_cases h : n < 10
    · rw [repDigits_lt n h]
      simp [digitsVal, digitChar_toNat n h]
    · have hdiv : n / 10 < n := by omega
      rw [repDigits_ge n h, digitsVal_append_one, ih (n / 10) hdiv,
        digitChar_toNat (n % 10) (by omega)]
      omega

theorem nat_repr_injective (m n : Nat) (h : Nat.repr m = Nat.repr n) : m = n := by
  have hd : Nat.toDigits 10 m = Nat.toDigits 10 n := congrArg String.data h
  rw [show Nat.toDigits 10 m = Nat.toDigitsCore 10 (m + 1) m [] from rfl,
    show Nat.toDigits 10 n = Nat.toDigitsCore 10 (n + 1) n [] from rfl,
    toDigitsCore_eq_repDigits m (m + 1) [] (by omega),
    toDigitsCore_eq_repDigits n (n + 1) [] (by omega),
    List.append_nil, List.append_nil] at hd
  rw [← digitsVal_repDigits m, ← digitsVal_repDigits n, hd]

theorem counter_candidate_inj (base : String) (m n : Nat)
    (h : base ++ " " ++ Nat.repr m = base ++ " " ++ Nat.repr n) : m = n := by
  apply nat_repr_injective
  apply String.ext
  have hdata := congrArg String.data h
  simp only [String.data_append, List.append_assoc] at hdata
  exact List.append_cancel_left (List.append_cancel_left hdata)

theorem exists_fresh_counter (used : List String) (base : String) (c : Nat) :
    ∃ k, k < used.length + 1 ∧ base ++ " " ++ Nat.repr (c + k) ∉ used := by
  by_contra hcon
  push_neg at hcon
  have himg : (Finset.range (used.length + 1)).image
      (fun k => base ++ " " ++ Nat.repr (c + k)) ⊆ used.toFinset := by
    intro s hs
    obtain ⟨k, hk, rfl⟩ := Finset.mem_image.mp hs
    exact List.mem_toFinset.mpr (hcon k (Finset.mem_range.mp hk))
  have hinj : Set.InjOn (fun k => base ++ " " ++ Nat.repr (c + k))
      (Finset.range (used.length + 1)) := by
    intro a _ b _ hab
    have := counter_candidate_inj base (c + a) (c + b) hab
    omega
  have hcard := Finset.card_le_card himg
  rw [Finset.card_image_of_injOn hinj, Finset.card_range] at hcard
  have := List.toFinset_card_le used
  omega

theorem uniquifyFrom_spec (used : List String) (base : String) :
    ∀ fuel c, (∃ k, k < fuel ∧ base ++ " " ++ Nat.repr (c + k) ∉ used) →
      uniquifyFrom used base fuel c ∉ used ∧
      ∃ m, c ≤ m ∧ uniquifyFrom used base fuel c = base ++ " " ++ Nat.repr m ∧
        ∀ j, c ≤ j → j < m → base ++ " " ++ Nat.repr j ∈ used := by
  intro fuel
  induction fuel with
  | zero =>
    rintro c ⟨k, hk, -⟩
    omega
  | succ fuel ih =>
    rintro c ⟨k, hk, hfree⟩
    by_cases hmem : base ++ " " ++ Nat.repr c ∈ used
    · have hstep : uniquifyFrom used base (fuel + 1) c =
          uniquifyFrom used base fuel (c + 1) := by
        show (if base ++ " " ++ Nat.repr c ∈ used then uniquifyFrom used base fuel (c + 1)
          else base ++ " " ++ Nat.repr c) = _
        rw [if_pos hmem]
      rw [hstep]
      have hk0 : k ≠ 0 := by
        intro h0
        rw [h0, Nat.add_zero] at hfree
        exact hfree hmem
      have hnext : ∃ k2, k2 < fuel ∧ base ++ " " ++ Nat.repr (c + 1 + k2) ∉ used := by
        refine ⟨k - 1, by omega, ?_⟩
        have : c + 1 + (k - 1) = c + k := by omega
        rw [this]
        exact hfree
      obtain ⟨hnot, m, hcm, heq, hall⟩ := ih (c + 1) hnext
      refine ⟨hnot, m, by omega, heq, ?_⟩
      intro j hj1 hj2
      by_cases hjc : j = c
      · rw [hjc]; exact hmem
      · exact hall j (by omega) hj2
    · have hstep : uniquifyFrom used base (fuel + 1) c = base ++ " " ++ Nat.repr c := by
        show (if base ++ " " ++ Nat.repr c ∈ used then uniquifyFrom used base fuel (c + 1)
          else base ++ " " ++ Nat.repr c) = _
        rw [if_neg hmem]
      rw [hstep]
      exact ⟨hmem, c, Nat.le_refl c, rfl, fun j h1 h2 => ((Nat.not_lt.mpr h1) h2).elim⟩

theorem uniquify_spec (used : List String) (base : String) :
    uniquify used base ∉ used ∧
    (base ∈ used → ∃ m, 2 ≤ m ∧ uniquify used base = base ++ " " ++ Nat.repr m ∧
      ∀ j, 2 ≤ j → j < m → base ++ " " ++ Nat.repr j ∈ used) ∧
    (base ∉ used → uniquify used base = base) := by
  unfold uniquify
  by_cases h : base ∈ used
  · rw [if_pos h]
    obtain ⟨k, hk, hfree⟩ := exists_fresh_counter used base 2
    have hmain := uniquifyFrom_spec used base (used.length + 1) 2 ⟨k, hk, hfree⟩
    exact ⟨hmain.1, fun _ => hmain.2, fun hc => absurd h hc⟩
  · rw [if_neg h]
    exact ⟨h, fun hc => absurd hc h, fun _ => rfl⟩

/-- C9: `generate_name` never returns a string present in the used-names set
at call time; when the candidate is taken it returns the candidate with the
first free counter from 2 up (every skipped counter was taken); it inserts
the result into the set before returning; and two successive calls against
one shared set return different strings, both present afterwards. -/
theorem generate_name_unique (analysis : LevelAnalysis) (used : List String) :
    (generate_name analysis used).1 ∉ used ∧
    (generate_name analysis used).2 = (generate_name analysis used).1 :: used ∧
    (baseName analysis ∈ used → ∃ m, 2 ≤ m ∧
      (generate_name analysis used).1 = baseName analysis ++ " " ++ Nat.repr m ∧
      ∀ j, 2 ≤ j → j < m → baseName analysis ++ " " ++ Nat.repr j ∈ used) ∧
    (generate_name analysis ((generate_name analysis used).2)).1 ≠
      (generate_name analysis used).1 ∧
    (generate_name analysis used).1 ∈
      (generate_name analysis ((generate_name analysis used).2)).2 ∧
    (generate_name analysis ((generate_name analysis used).2)).1 ∈
      (generate_name analysis ((generate_name analysis used).2)).2 := by
  have h1 := uniquify_spec used (baseName analysis)
  have h2 := uniquify_spec ((generate_name analysis used).2) (baseName analysis)
  refine ⟨h1.1, rfl, fun hc => h1.2.1 hc, ?_, ?_, ?_⟩
  · intro heq
    have hmem2 : (generate_name analysis ((generate_name analysis used).2)).1 ∉
        (generate_name analysis used).1 :: used := h2.1
    rw [heq] at hmem2
    exact hmem2 (by simp)
  · show (generate_name analysis used).1 ∈
      (generate_name analysis ((generate_name analysis used).2)).1 ::
        (generate_name analysis used).1 :: used
    simp
  · show (generate_name analysis ((generate_name analysis used).2)).1 ∈
      (generate_name analysis ((generate_name analysis used).2)).1 ::
        (generate_name analysis used).1 :: used
    simp

theorem generate_name_unique_witness :
    (baseName ⟨⟨false, false, false, false⟩, ObstaclePattern.None, ⟨0, 0, 100⟩⟩ ∈
      ["Simple"]) ∧
    ∃ m, 2 ≤ m ∧
      (generate_name ⟨⟨false, false, false, false⟩, ObstaclePattern.None, ⟨0, 0, 100⟩⟩
        ["Simple"]).1 =
        baseName ⟨⟨false, false, false, false⟩, ObstaclePattern.None, ⟨0, 0, 100⟩⟩ ++
          " " ++ Nat.repr m ∧
      ∀ j, 2 ≤ j → j < m →
        baseName ⟨⟨false, false, false, false⟩, ObstaclePattern.None, ⟨0, 0, 100⟩⟩ ++
          " " ++ Nat.repr j ∈ ["Simple"] := by
  have hbase : baseName
      ⟨⟨false, false, false, false⟩, ObstaclePattern.None, ⟨0, 0, 100⟩⟩ = "Simple" := by
    unfold baseName nameParts
    norm_num
    decide
  refine ⟨by rw [hbase]; decide, ?_⟩
  exact (generate_name_unique
    ⟨⟨false, false, false, false⟩, ObstaclePattern.None, ⟨0, 0, 100⟩⟩ ["Simple"]).2.2.1
    (by rw [hbase]; decide)

/-! ### Verifier: claim C2 -/

theorem runPlayback_append_of_stop {σ : Type} (pm : σ → Direction → Except String σ)
    (status : σ → GameStatus) :
    ∀ (dirs : List Direction) (s0 sf : σ),
      runPlayback pm status s0 dirs = Except.ok sf → status sf ≠ GameStatus.Playing →
      ∀ extra, runPlayback pm status s0 (dirs ++ extra) = Except.ok sf := by
  intro dirs
  induction dirs with
  | nil =>
    intro s0 sf h hstat extra
    have hs : s0 = sf := by
      have : Except.ok (ε := String) s0 = Except.ok sf := h
      injection this
    subst hs
    match extra with
    | [] => rfl
    | d :: rest =>
      show (if status s0 ≠ GameStatus.Playing then Except.ok s0
        else match pm s0 d with
          | .error e => .error ("Engine move failed for direction " ++ directionName d ++
              ": " ++ e)
          | .ok s2 => runPlayback pm status s2 rest) = Except.ok s0
      rw [if_pos hstat]
  | cons d ds ih =>
    intro s0 sf h hstat extra
    rw [List.cons_append]
    by_cases hc : status s0 = GameStatus.Playing
    · have hred : runPlayback pm status s0 (d :: ds) =
          (match pm s0 d with
            | .error e => .error ("Engine move failed for direction " ++ directionName d ++
                ": " ++ e)
            | .ok s2 => runPlayback pm status s2 ds) := by
        show (if status s0 ≠ GameStatus.Playing then Except.ok s0 else _) = _
        rw [if_neg (not_not_intro hc)]
      rw [hred] at h
      have hred2 : runPlayback pm status s0 (d :: (ds ++ extra)) =
          (match pm s0 d with
            | .error e => .error ("Engine move failed for direction " ++ directionName d ++
                ": " ++ e)
            | .ok s2 => runPlayback pm status s2 (ds ++ extra)) := by
        show (if status s0 ≠ GameStatus.Playing then Except.ok s0 else _) = _
        rw [if_neg (not_not_intro hc)]
      rw [hred2]
      match hpm : pm s0 d with
      | .error e =>
        rw [hpm] at h
        exact absurd h (by simp)
      | .ok s2 =>
        rw [hpm] at h
        exact ih s2 sf h hstat extra
    · have hred : runPlayback pm status s0 (d :: ds) = Except.ok s0 := by
        show (if status s0 ≠ GameStatus.Playing then Except.ok s0 else _) = _
        rw [if_pos hc]
      rw [hred] at h
      have hs : s0 = sf := by injection h
      subst hs
      show (if status s0 ≠ GameStatus.Playing then Except.ok s0 else _) = _
      rw [if_pos hc]

/-- C2: once the recorded directions replay without a move failure to a final
state, `verify_level` succeeds exactly when the final status is LevelComplete
or AllComplete, fails with the game-over error on GameOver, fails with the
did-not-complete error when the directions ran out still Playing; and any
recorded moves past a non-Playing status are ignored (appending extra
directions does not change the replay result). -/
theorem verify_level_final_status {σ : Type} (pm : σ → Direction → Except String σ)
    (status : σ → GameStatus) (s0 : σ) (dirs : List Direction) (sf : σ)
    (hrun : runPlayback pm status s0 dirs = Except.ok sf) :
    (verify_level pm status s0 dirs = Except.ok () ↔
      (status sf = GameStatus.LevelComplete ∨ status sf = GameStatus.AllComplete)) ∧
    (status sf = GameStatus.GameOver →
      verify_level pm status s0 dirs = Except.error "Playback resulted in Game Over") ∧
    (status sf = GameStatus.Playing →
      verify_level pm status s0 dirs =
        Except.error "Playback did not complete the level") ∧
    (status sf ≠ GameStatus.Playing →
      ∀ extra, runPlayback pm status s0 (dirs ++ extra) = Except.ok sf) := by
  have hv : verify_level pm status s0 dirs =
      (match status sf with
        | GameStatus.LevelComplete => Except.ok ()
        | GameStatus.AllComplete => Except.ok ()
        | GameStatus.GameOver => Except.error "Playback resulted in Game Over"
        | GameStatus.Playing => Except.error "Playback did not complete the level") := by
    unfold verify_level
    rw [hrun]
  refine ⟨?_, ?_, ?_, fun hstat extra =>
    runPlayback_append_of_stop pm status dirs s0 sf hrun hstat extra⟩ <;>
    rw [hv] <;> cases hst : status sf <;> simp

theorem verify_level_final_status_witness :
    (runPlayback (fun (_ : Fin 2) (_ : Direction) => Except.ok (1 : Fin 2))
      (fun i => if i = 0 then GameStatus.Playing else GameStatus.LevelComplete)
      0 [Direction.East] = Except.ok 1) ∧
    verify_level (fun (_ : Fin 2) (_ : Direction) => Except.ok (1 : Fin 2))
      (fun i => if i = 0 then GameStatus.Playing else GameStatus.LevelComplete)
      0 [Direction.East] = Except.ok () := by
  refine ⟨rfl, ?_⟩
  exact (verify_level_final_status (fun (_ : Fin 2) (_ : Direction) => Except.ok (1 : Fin 2))
    (fun i => if i = 0 then GameStatus.Playing else GameStatus.LevelComplete)
    0 [Direction.East] 1 rfl).1.mpr (Or.inl (by simp))

/-! ### Level Solver: claim C1 -/

section SolverProofs

variable {σ : Type} [DecidableEq σ] (step : σ → Direction → Option σ)
  (status : σ → GameStatus) (maxDepth : Nat)

theorem searchBudget_pos (k : Nat) : 1 ≤ searchBudget k := by
  cases k with
  | zero => exact Nat.le_refl 1
  | succ k => show 1 ≤ 1 + 4 * searchBudget k; omega

theorem mem_solverDirections (d : Direction) : d ∈ solverDirections := by
  cases d <;> simp [solverDirections]

theorem childNodes_mem {s : σ} {p : List Direction} {d : Direction} {s2 : σ}
    (hstep : step s d = some s2) : (s2, p ++ [d]) ∈ childNodes step s p := by
  unfold childNodes
  rw [List.mem_filterMap]
  exact ⟨d, mem_solverDirections d, by rw [hstep]; rfl⟩

theorem of_childNodes_mem {s : σ} {p : List Direction} {e : σ × List Direction}
    (h : e ∈ childNodes step s p) :
    ∃ d s2, step s d = some s2 ∧ e = (s2, p ++ [d]) := by
  unfold childNodes at h
  rw [List.mem_filterMap] at h
  obtain ⟨d, -, hd⟩ := h
  match hsd : step s d with
  | none => rw [hsd] at hd; exact absurd hd (by simp)
  | some s2 =>
    rw [hsd] at hd
    refine ⟨d, s2, hsd, ?_⟩
    have : (s2, p ++ [d]) = e := by
      have hd2 : some (s2, p ++ [d]) = some e := hd
      injection hd2
    exact this.symm

theorem childNodes_length_le (s : σ) (p : List Direction) :
    (childNodes step s p).length ≤ 4 := by
  calc (childNodes step s p).length ≤ solverDirections.length :=
        List.length_filterMap_le _ _
    _ = 4 := rfl

theorem childNodes_path_length {s : σ} {p : List Direction} {e : σ × List Direction}
    (h : e ∈ childNodes step s p) : e.2.length = p.length + 1 := by
  obtain ⟨d, s2, -, rfl⟩ := of_childNodes_mem step h
  simp

theorem queueWeight_nil : queueWeight (σ := σ) maxDepth [] = 0 := rfl

theorem queueWeight_cons (e : σ × List Direction) (rest : List (σ × List Direction)) :
    queueWeight maxDepth (e :: rest) =
      searchBudget (maxDepth + 2 - e.2.length) + queueWeight maxDepth rest := by
  unfold queueWeight
  rw [List.map_cons, List.sum_cons]

theorem queueWeight_append (q1 q2 : List (σ × List Direction)) :
    queueWeight maxDepth (q1 ++ q2) = queueWeight maxDepth q1 + queueWeight maxDepth q2 := by
  unfold queueWeight
  rw [List.map_append, List.sum_append]

theorem queueWeight_childNodes (s : σ) (p : List Direction) :
    queueWeight maxDepth (childNodes step s p) ≤
      4 * searchBudget (maxDepth + 1 - p.length) := by
  unfold queueWeight
  have hle : ∀ x ∈ (childNodes step s p).map
      (fun e => searchBudget (maxDepth + 2 - e.2.length)),
      x ≤ searchBudget (maxDepth + 1 - p.length) := by
    intro x hx
    rw [List.mem_map] at hx
    obtain ⟨e, he, rfl⟩ := hx
    rw [childNodes_path_length step he]
    have : maxDepth + 2 - (p.length + 1) = maxDepth + 1 - p.length := by omega
    rw [this]
  calc ((childNodes step s p).map
        (fun e => searchBudget (maxDepth + 2 - e.2.length))).sum
      ≤ ((childNodes step s p).map
        (fun e => searchBudget (maxDepth + 2 - e.2.length))).length *
          searchBudget (maxDepth + 1 - p.length) := by
        have := List.sum_le_card_nsmul ((childNodes step s p).map
          (fun e => searchBudget (maxDepth + 2 - e.2.length)))
          (searchBudget (maxDepth + 1 - p.length)) hle
        simpa [smul_eq_mul] using this
    _ ≤ 4 * searchBudget (maxDepth + 1 - p.length) := by
        rw [List.length_map]
        exact Nat.mul_le_mul_right _ (childNodes_length_le step s p)

theorem replay_cons (s : σ) (d0 : Direction) (rest : List Direction) :
    replay step s (d0 :: rest) =
      match step s d0 with
      | none => none
      | some s2 => replay step s2 rest := rfl

theorem replay_append_one (d : Direction) :
    ∀ (p : List Direction) (s : σ),
      replay step s (p ++ [d]) =
        match replay step s p with
        | none => none
        | some t => step t d := by
  intro p
  induction p with
  | nil =>
    intro s
    rw [List.nil_append, replay_cons]
    show _ = step s d
    match h : step s d with
    | none => rfl
    | some s2 => rfl
  | cons d0 rest ih =>
    intro s
    rw [List.cons_append, replay_cons, replay_cons]
    match h : step s d0 with
    | none => rfl
    | some s2 => exact ih s2

theorem solveLoop_cons (fuel : Nat) (s : σ) (p : List Direction)
    (rest : List (σ × List Direction)) (visited : List σ) :
    solveLoop step status maxDepth (fuel + 1) ((s, p) :: rest) visited =
      if p.length > maxDepth then solveLoop step status maxDepth fuel rest visited
      else if (status s).isCompleteStatus = true then .ok p
      else if status s = GameStatus.GameOver then
        solveLoop step status maxDepth fuel rest visited
      else if s ∈ visited then solveLoop step status maxDepth fuel rest visited
      else solveLoop step status maxDepth fuel (rest ++ childNodes step s p)
        (s :: visited) := rfl

theorem solveLoop_ok_or_error (fuel : Nat) :
    ∀ (queue : List (σ × List Direction)) (visited : List σ),
      (∃ p, solveLoop step status maxDepth fuel queue visited = .ok p) ∨
        solveLoop step status maxDepth fuel queue visited =
          .error "No solution found" := by
  induction fuel with
  | zero =>
    intro queue visited
    match queue with
    | [] => exact Or.inr rfl
    | e :: rest => exact Or.inr rfl
  | succ fuel ih =>
    intro queue visited
    match queue with
    | [] => exact Or.inr rfl
    | (s, p) :: rest =>
      rw [solveLoop_cons]
      by_cases h1 : p.length > maxDepth
      · rw [if_pos h1]; exact ih rest visited
      · rw [if_neg h1]
        by_cases h2 : (status s).isCompleteStatus = true
        · rw [if_pos h2]; exact Or.inl ⟨p, rfl⟩
        · rw [if_neg h2]
          by_cases h3 : status s = GameStatus.GameOver
          · rw [if_pos h3]; exact ih rest visited
          · rw [if_neg h3]
            by_cases h4 : s ∈ visited
            · rw [if_pos h4]; exact ih rest visited
            · rw [if_neg h4]; exact ih (rest ++ childNodes step s p) (s :: visited)

theorem solveLoop_zero_nil (visited : List σ) :
    solveLoop step status maxDepth 0 [] visited = .error "No solution found" := rfl

theorem solveLoop_zero_cons (e : σ × List Direction) (rest : List (σ × List Direction))
    (visited : List σ) :
    solveLoop step status maxDepth 0 (e :: rest) visited =
      .error "No solution found" := rfl

theorem solveLoop_nil (fuel : Nat) (visited : List σ) :
    solveLoop step status maxDepth fuel [] visited = .error "No solution found" := by
  cases fuel with
  | zero => rfl
  | succ fuel => rfl

theorem solveLoop_sound (s0 : σ) (fuel : Nat) :
    ∀ (queue : List (σ × List Direction)) (visited : List σ) (p : List Direction),
      (∀ e ∈ queue, replay step s0 e.2 = some e.1) →
      solveLoop step status maxDepth fuel queue visited = .ok p →
      ∃ t, replay step s0 p = some t ∧ (status t).isCompleteStatus = true ∧
        p.length ≤ maxDepth := by
  induction fuel with
  | zero =>
    intro queue visited p hinv h
    match queue with
    | [] => rw [solveLoop_zero_nil] at h; exact absurd h (by simp)
    | e :: rest => rw [solveLoop_zero_cons] at h; exact absurd h (by simp)
  | succ fuel ih =>
    intro queue visited p hinv h
    match queue with
    | [] => rw [solveLoop_nil] at h; exact absurd h (by simp)
    | (s, p0) :: rest =>
      rw [solveLoop_cons] at h
      have hinvRest : ∀ e ∈ rest, replay step s0 e.2 = some e.1 :=
        fun e he => hinv e (by simp [he])
      by_cases h1 : p0.length > maxDepth
      · rw [if_pos h1] at h
        exact ih rest visited p hinvRest h
      · rw [if_neg h1] at h
        by_cases h2 : (status s).isCompleteStatus = true
        · rw [if_pos h2] at h
          have hp : p0 = p := by injection h
          subst hp
          exact ⟨s, hinv (s, p0) (by simp), h2, by omega⟩
        · rw [if_neg h2] at h
          by_cases h3 : status s = GameStatus.GameOver
          · rw [if_pos h3] at h
            exact ih rest visited p hinvRest h
          · rw [if_neg h3] at h
            by_cases h4 : s ∈ visited
            · rw [if_pos h4] at h
              exact ih rest visited p hinvRest h
            · rw [if_neg h4] at h
              refine ih (rest ++ childNodes step s p0) (s :: visited) p ?_ h
              intro e he
              rw [List.mem_append] at he
              cases he with
              | inl he => exact hinvRest e he
              | inr he =>
                obtain ⟨d, s2, hstep, rfl⟩ := of_childNodes_mem step he
                rw [replay_append_one, hinv (s, p0) (by simp)]
                exact hstep

/-- Chasing a completing path through the visited set: if a state on a
completing path is visited, some later state of the path is an unvisited
queue node. -/
theorem solveChase (hmv : MovesOnlyWhilePlaying step status)
    (queue : List (σ × List Direction)) (visited : List σ) (bound : Nat)
    (hvisPlaying : ∀ v ∈ visited, status v = GameStatus.Playing)
    (hcover : ∀ v ∈ visited, ∀ d s2, step v d = some s2 →
      (status s2 = GameStatus.Playing ∨ (status s2).isCompleteStatus = true) →
      s2 ∈ visited ∨ ∃ q, (s2, q) ∈ queue)
    (hLB : ∀ e ∈ queue, e.2.length ≤ bound) :
    ∀ (cont : List Direction) (s1 t : σ),
      replay step s1 cont = some t → (status t).isCompleteStatus = true →
      s1 ∈ visited →
      ∃ sj qj contj, (sj, qj) ∈ queue ∧ sj ∉ visited ∧
        replay step sj contj = some t ∧ qj.length ≤ bound ∧
        contj.length ≤ cont.length := by
  intro cont
  induction cont with
  | nil =>
    intro s1 t hrep hcomp hmem
    have hst : s1 = t := by
      have : some s1 = some t := hrep
      injection this
    subst hst
    rw [hvisPlaying s1 hmem] at hcomp
    exact absurd hcomp (by simp [GameStatus.isCompleteStatus])
  | cons d rest ih =>
    intro s1 t hrep hcomp hmem
    rw [replay_cons] at hrep
    match hstep : step s1 d with
    | none => rw [hstep] at hrep; exact absurd hrep (by simp)
    | some s2 =>
      rw [hstep] at hrep
      have hs2stat : status s2 = GameStatus.Playing ∨
          (status s2).isCompleteStatus = true := by
        match rest, hrep with
        | [], hrep2 =>
          have : s2 = t := by
            have : some s2 = some t := hrep2
            injection this
          subst this
          exact Or.inr hcomp
        | d2 :: rest2, hrep2 =>
          have hrep3 : replay step s2 (d2 :: rest2) = some t := hrep2
          rw [replay_cons] at hrep3
          match hstep2 : step s2 d2 with
          | none => rw [hstep2] at hrep3; exact absurd hrep3 (by simp)
          | some s3 => exact Or.inl (hmv s2 d2 s3 hstep2)
      cases hcover s1 hmem d s2 hstep hs2stat with
      | inl hin =>
        obtain ⟨sj, qj, contj, hq, hnot, hr, hb, hlen⟩ := ih s2 t hrep hcomp hin
        exact ⟨sj, qj, contj, hq, hnot, hr, hb, by rw [List.length_cons]; omega⟩
      | inr hq =>
        obtain ⟨q2, hq2⟩ := hq
        by_cases hs2v : s2 ∈ visited
        · obtain ⟨sj, qj, contj, hq3, hnot, hr, hb, hlen⟩ := ih s2 t hrep hcomp hs2v
          exact ⟨sj, qj, contj, hq3, hnot, hr, hb, by rw [List.length_cons]; omega⟩
        · exact ⟨s2, q2, rest, hq2, hs2v, hrep, hLB (s2, q2) hq2,
            by rw [List.length_cons]; omega⟩

theorem sorted_of_const (L : List Nat) (c : Nat) (h : ∀ x ∈ L, x = c) :
    L.Sorted (· ≤ ·) := by
  induction L with
  | nil => exact List.sorted_nil
  | cons a L ih =>
    rw [List.sorted_cons]
    refine ⟨fun b hb => ?_, ih fun x hx => h x (by simp [hx])⟩
    rw [h a (by simp), h b (by simp [hb])]

theorem solveLoop_complete (hmv : MovesOnlyWhilePlaying step status) (fuel : Nat) :
    ∀ (queue : List (σ × List Direction)) (visited : List σ),
      SolveInv step status queue visited →
      HasWitness step status maxDepth queue visited →
      queueWeight maxDepth queue ≤ fuel →
      ∃ p, solveLoop step status maxDepth fuel queue visited = .ok p := by
  induction fuel with
  | zero =>
    intro queue visited hinv hwit hw
    obtain ⟨sw, qw, cont, t, hqw, -, -, -, -⟩ := hwit
    match queue, hqw with
    | e :: rest, _ =>
      exfalso
      have h1 := searchBudget_pos (maxDepth + 2 - e.2.length)
      rw [queueWeight_cons] at hw
      omega
  | succ fuel ih =>
    intro queue visited hinv hwit hw
    match queue with
    | [] =>
      obtain ⟨sw, qw, cont, t, hqw, -, -, -, -⟩ := hwit
      exact absurd hqw (by simp)
    | (s, p) :: rest =>
      obtain ⟨sw, qw, cont, t, hqw, hswnv, hrep, hcomp, hbudget⟩ := hwit
      have hsort := hinv.sortedQ
      rw [List.map_cons, List.sorted_cons] at hsort
      have hmin : ∀ e ∈ rest, p.length ≤ e.2.length := by
        intro e he
        exact hsort.1 e.2.length (List.mem_map.mpr ⟨e, he, rfl⟩)
      have hclose := hinv.closeQ
      have hheadLen : p.length ∈ ((s, p) :: rest).map fun e => e.2.length := by
        rw [List.map_cons]
        exact List.mem_cons_self _ _
      have htailLen : ∀ x ∈ rest.map (fun e => e.2.length),
          x ∈ ((s, p) :: rest).map fun e => e.2.length := by
        intro x hx
        rw [List.map_cons]
        exact List.mem_cons_of_mem _ hx
      have hrestle : ∀ e ∈ rest, e.2.length ≤ p.length + 1 := by
        intro e he
        exact hclose e.2.length (htailLen _ (List.mem_map.mpr ⟨e, he, rfl⟩))
          p.length hheadLen
      have hqwlen : p.length ≤ qw.length := by
        rcases List.mem_cons.mp hqw with heq | hmem
        · exact (congrArg List.length (congrArg Prod.snd heq)).ge
        · exact hmin (sw, qw) hmem
      have hw2 : searchBudget (maxDepth + 2 - p.length) + queueWeight maxDepth rest ≤
          fuel + 1 := by
        rw [queueWeight_cons] at hw
        exact hw
      have hwrest : queueWeight maxDepth rest ≤ fuel := by
        have := searchBudget_pos (maxDepth + 2 - p.length)
        omega
      rw [solveLoop_cons]
      by_cases h1 : p.length > maxDepth
      · exfalso
        omega
      · rw [if_neg h1]
        by_cases h2 : (status s).isCompleteStatus = true
        · rw [if_pos h2]
          exact ⟨p, rfl⟩
        · rw [if_neg h2]
          by_cases h3 : status s = GameStatus.GameOver
          · rw [if_pos h3]
            have hwitRest : (sw, qw) ∈ rest := by
              rcases List.mem_cons.mp hqw with heq | hmem
              · exfalso
                have hsws : sw = s := congrArg Prod.fst heq
                match cont, hrep with
                | [], hrep2 =>
                  have : some sw = some t := hrep2
                  have hst : sw = t := by injection this
                  rw [← hst, hsws] at hcomp
                  exact h2 hcomp
                | d0 :: cont2, hrep2 =>
                  have hrep3 : replay step sw (d0 :: cont2) = some t := hrep2
                  rw [replay_cons] at hrep3
                  match hstep : step sw d0 with
                  | none => rw [hstep] at hrep3; exact absurd hrep3 (by simp)
                  | some s1 =>
                    have := hmv sw d0 s1 hstep
                    rw [hsws, h3] at this
                    exact absurd this (by simp)
              · exact hmem
            refine ih rest visited ⟨hinv.visPlaying, ?_, hsort.2, fun a ha b hb =>
              hclose a (htailLen a ha) b (htailLen b hb)⟩
              ⟨sw, qw, cont, t, hwitRest, hswnv, hrep, hcomp, hbudget⟩ hwrest
            intro v hv d s2 hstep hstat
            rcases hinv.cover v hv d s2 hstep hstat with hin | ⟨q2, hq2⟩
            · exact Or.inl hin
            · rcases List.mem_cons.mp hq2 with heq | hmem
              · exfalso
                have hs2s : s2 = s := congrArg Prod.fst heq
                rw [hs2s, h3] at hstat
                rcases hstat with hst1 | hst1
                · exact absurd hst1 (by simp)
                · exact absurd hst1 (by simp [GameStatus.isCompleteStatus])
              · exact Or.inr ⟨q2, hmem⟩
          · rw [if_neg h3]
            by_cases h4 : s ∈ visited
            · rw [if_pos h4]
              have hwitRest : (sw, qw) ∈ rest := by
                rcases List.mem_cons.mp hqw with heq | hmem
                · exfalso
                  have hsws : sw = s := congrArg Prod.fst heq
                  rw [hsws] at hswnv
                  exact hswnv h4
                · exact hmem
              refine ih rest visited ⟨hinv.visPlaying, ?_, hsort.2, fun a ha b hb =>
                hclose a (htailLen a ha) b (htailLen b hb)⟩
                ⟨sw, qw, cont, t, hwitRest, hswnv, hrep, hcomp, hbudget⟩ hwrest
              intro v hv d s2 hstep hstat
              rcases hinv.cover v hv d s2 hstep hstat with hin | ⟨q2, hq2⟩
              · exact Or.inl hin
              · rcases List.mem_cons.mp hq2 with heq | hmem
                · have hs2s : s2 = s := congrArg Prod.fst heq
                  rw [hs2s]
                  exact Or.inl h4
                · exact Or.inr ⟨q2, hmem⟩
            · rw [if_neg h4]
              have hsPlaying : status s = GameStatus.Playing := by
                cases hst : status s
                · rfl
                · exact absurd hst h3
                · exfalso; rw [hst] at h2; exact h2 rfl
                · exfalso; rw [hst] at h2; exact h2 rfl
              have hwexp : queueWeight maxDepth (rest ++ childNodes step s p) ≤ fuel := by
                rw [queueWeight_append]
                have hchild := queueWeight_childNodes step maxDepth s p
                have hsplit : maxDepth + 2 - p.length = (maxDepth + 1 - p.length) + 1 := by
                  omega
                have hself : searchBudget (maxDepth + 2 - p.length) =
                    1 + 4 * searchBudget (maxDepth + 1 - p.length) := by
                  rw [hsplit]
                  rfl
                omega
              have hvisPlaying2 : ∀ v ∈ s :: visited, status v = GameStatus.Playing := by
                intro v hv
                rcases List.mem_cons.mp hv with heq | hmem
                · rw [heq]; exact hsPlaying
                · exact hinv.visPlaying v hmem
              have hcover2 : ∀ v ∈ s :: visited, ∀ d s2, step v d = some s2 →
                  (status s2 = GameStatus.Playing ∨ (status s2).isCompleteStatus = true) →
                  s2 ∈ s :: visited ∨ ∃ q, (s2, q) ∈ rest ++ childNodes step s p := by
                intro v hv d s2 hstep hstat
                rcases List.mem_cons.mp hv with heq | hmem
                · subst heq
                  exact Or.inr ⟨p ++ [d], List.mem_append_right _ (childNodes_mem step hstep)⟩
                · rcases hinv.cover v hmem d s2 hstep hstat with hin | ⟨q2, hq2⟩
                  · exact Or.inl (List.mem_cons_of_mem _ hin)
                  · rcases List.mem_cons.mp hq2 with heq2 | hmem2
                    · have hs2s : s2 = s := congrArg Prod.fst heq2
                      rw [hs2s]
                      exact Or.inl (List.mem_cons_self _ _)
                    · exact Or.inr ⟨q2, List.mem_append_left _ hmem2⟩
              have hLB2 : ∀ e ∈ rest ++ childNodes step s p, e.2.length ≤ p.length + 1 := by
                intro e he
                rcases List.mem_append.mp he with hmem | hmem
                · exact hrestle e hmem
                · rw [childNodes_path_length step hmem]
              have hsorted2 : ((rest ++ childNodes step s p).map fun e =>
                  e.2.length).Sorted (· ≤ ·) := by
                rw [List.map_append]
                refine List.pairwise_append.mpr ⟨hsort.2, ?_, ?_⟩
                · apply sorted_of_const _ (p.length + 1)
                  intro x hx
                  obtain ⟨e, he, rfl⟩ := List.mem_map.mp hx
                  exact childNodes_path_length step he
                · intro a ha b hb
                  obtain ⟨ea, hea, rfl⟩ := List.mem_map.mp ha
                  obtain ⟨eb, heb, rfl⟩ := List.mem_map.mp hb
                  rw [childNodes_path_length step heb]
                  exact hrestle ea hea
              have hclose2 : ∀ a ∈ (rest ++ childNodes step s p).map (fun e => e.2.length),
                  ∀ b ∈ (rest ++ childNodes step s p).map (fun e => e.2.length),
                  a ≤ b + 1 := by
                intro a ha b hb
                obtain ⟨ea, hea, rfl⟩ := List.mem_map.mp ha
                obtain ⟨eb, heb, rfl⟩ := List.mem_map.mp hb
                have hale : ea.2.length ≤ p.length + 1 := hLB2 ea hea
                have hble : p.length ≤ eb.2.length := by
                  rcases List.mem_append.mp heb with hmem | hmem
                  · exact hmin eb hmem
                  · rw [childNodes_path_length step hmem]; omega
                omega
              have hinv2 : SolveInv step status (rest ++ childNodes step s p)
                  (s :: visited) := ⟨hvisPlaying2, hcover2, hsorted2, hclose2⟩
              refine ih (rest ++ childNodes step s p) (s :: visited) hinv2 ?_ hwexp
              by_cases hsw : sw = s
              · subst hsw
                match cont, hrep with
                | [], hrep2 =>
                  exfalso
                  have : some sw = some t := hrep2
                  have hst : sw = t := by injection this
                  rw [← hst] at hcomp
                  exact h2 hcomp
                | d0 :: cont2, hrep2 =>
                  have hrep3 : replay step sw (d0 :: cont2) = some t := hrep2
                  rw [replay_cons] at hrep3
                  match hstep : step sw d0 with
                  | none => rw [hstep] at hrep3; exact absurd hrep3 (by simp)
                  | some s1 =>
                    rw [hstep] at hrep3
                    by_cases hs1 : s1 ∈ sw :: visited
                    · obtain ⟨sj, qj, contj, hqj, hnotj, hrj, hbj, hlenj⟩ :=
                        solveChase step status hmv (rest ++ childNodes step sw p)
                          (sw :: visited) (p.length + 1) hvisPlaying2 hcover2 hLB2
                          cont2 s1 t hrep3 hcomp hs1
                      refine ⟨sj, qj, contj, t, hqj, hnotj, hrj, hcomp, ?_⟩
                      have hcl : (d0 :: cont2).length = cont2.length + 1 := by
                        rw [List.length_cons]
                      omega
                    · refine ⟨s1, p ++ [d0], cont2, t,
                        List.mem_append_right _ (childNodes_mem step hstep), hs1,
                        hrep3, hcomp, ?_⟩
                      have hpl : (p ++ [d0]).length = p.length + 1 := by simp
                      have hcl : (d0 :: cont2).length = cont2.length + 1 := by
                        rw [List.length_cons]
                      omega
              · have hwitRest : (sw, qw) ∈ rest := by
                  rcases List.mem_cons.mp hqw with heq | hmem
                  · exact absurd (congrArg Prod.fst heq) hsw
                  · exact hmem
                refine ⟨sw, qw, cont, t, List.mem_append_left _ hwitRest, ?_, hrep,
                  hcomp, hbudget⟩
                intro hmem
                rcases List.mem_cons.mp hmem with heq | hmem2
                · exact hsw heq
                · exact hswnv hmem2

/-- Faithfulness of the fueled embedding: once the fuel dominates the queue's
loop-iteration budget, adding more fuel never changes the result, so
`solve_level` computes the limit of the source's unbounded loop. -/
theorem solveLoop_fuel_stable (fuel : Nat) :
    ∀ (extra : Nat) (queue : List (σ × List Direction)) (visited : List σ),
      queueWeight maxDepth queue ≤ fuel →
      solveLoop step status maxDepth (fuel + extra) queue visited =
        solveLoop step status maxDepth fuel queue visited := by
  induction fuel with
  | zero =>
    intro extra queue visited hw
    match queue with
    | [] => rw [solveLoop_nil, solveLoop_nil]
    | e :: rest =>
      exfalso
      have := searchBudget_pos (maxDepth + 2 - e.2.length)
      rw [queueWeight_cons] at hw
      omega
  | succ fuel ih =>
    intro extra queue visited hw
    match queue with
    | [] => rw [solveLoop_nil, solveLoop_nil]
    | (s, p) :: rest =>
      have hw2 : searchBudget (maxDepth + 2 - p.length) + queueWeight maxDepth rest ≤
          fuel + 1 := by
        rw [queueWeight_cons] at hw
        exact hw
      have hwrest : queueWeight maxDepth rest ≤ fuel := by
        have := searchBudget_pos (maxDepth + 2 - p.length)
        omega
      have hsucc : fuel + 1 + extra = (fuel + extra) + 1 := by omega
      rw [hsucc, solveLoop_cons, solveLoop_cons]
      by_cases h1 : p.length > maxDepth
      · rw [if_pos h1, if_pos h1]
        exact ih extra rest visited hwrest
      · rw [if_neg h1, if_neg h1]
        by_cases h2 : (status s).isCompleteStatus = true
        · rw [if_pos h2, if_pos h2]
        · rw [if_neg h2, if_neg h2]
          by_cases h3 : status s = GameStatus.GameOver
          · rw [if_pos h3, if_pos h3]
            exact ih extra rest visited hwrest
          · rw [if_neg h3, if_neg h3]
            by_cases h4 : s ∈ visited
            · rw [if_pos h4, if_pos h4]
              exact ih extra rest visited hwrest
            · rw [if_neg h4, if_neg h4]
              apply ih extra
              rw [queueWeight_append]
              have hchild := queueWeight_childNodes step maxDepth s p
              have hsplit : maxDepth + 2 - p.length = (maxDepth + 1 - p.length) + 1 := by
                omega
              have hself : searchBudget (maxDepth + 2 - p.length) =
                  1 + 4 * searchBudget (maxDepth + 1 - p.length) := by
                rw [hsplit]
                rfl
              omega

/-- C1 (amended): for an engine that applies moves only while Playing, if a
completing state is reachable within `max_depth` processed moves then
`solve_level` returns a direction sequence that replays from the initial
state to LevelComplete or AllComplete with length at most `max_depth`, the
sequence being empty exactly when the initial state already completes (in
particular non-empty whenever the initial status is Playing); and with no
reachable completion within `max_depth` it fails with "No solution found". -/
theorem solve_level_correct (hmv : MovesOnlyWhilePlaying step status) (s0 : σ) :
    (ReachesCompletionWithin step status s0 maxDepth →
      ∃ p t, solve_level step status s0 maxDepth = .ok p ∧
        replay step s0 p = some t ∧ (status t).isCompleteStatus = true ∧
        p.length ≤ maxDepth ∧
        (p = [] ↔ (status s0).isCompleteStatus = true)) ∧
    (¬ReachesCompletionWithin step status s0 maxDepth →
      solve_level step status s0 maxDepth = .error "No solution found") := by
  have hreplayInv : ∀ e ∈ [(s0, ([] : List Direction))], replay step s0 e.2 = some e.1 := by
    intro e he
    rw [List.mem_singleton] at he
    rw [he]
    rfl
  constructor
  · rintro ⟨p0, t0, hrep0, hcomp0, hlen0⟩
    have hinv0 : SolveInv step status [(s0, [])] [] := by
      refine ⟨by simp, by simp, ?_, ?_⟩
      · simp
      · intro a ha b hb
        simp at ha hb
        omega
    have hwit0 : HasWitness step status maxDepth [(s0, [])] [] :=
      ⟨s0, [], p0, t0, by simp, by simp, hrep0, hcomp0, by simpa using hlen0⟩
    have hfuel : queueWeight maxDepth [(s0, [])] ≤ searchBudget (maxDepth + 2) := by
      unfold queueWeight
      simp
    obtain ⟨p, hp⟩ := solveLoop_complete step status maxDepth hmv
      (searchBudget (maxDepth + 2)) [(s0, [])] [] hinv0 hwit0 hfuel
    obtain ⟨t, hrt, hct, hlt⟩ := solveLoop_sound step status maxDepth s0
      (searchBudget (maxDepth + 2)) [(s0, [])] [] p hreplayInv hp
    refine ⟨p, t, hp, hrt, hct, hlt, ?_, ?_⟩
    · intro hpe
      subst hpe
      have hts : s0 = t := by
        have : some s0 = some t := hrt
        injection this
      rw [hts]
      exact hct
    · intro hs0c
      have hsucc : searchBudget (maxDepth + 2) =
          (searchBudget (maxDepth + 2) - 1) + 1 := by
        have := searchBudget_pos (maxDepth + 2)
        omega
      have hempty : solveLoop step status maxDepth (searchBudget (maxDepth + 2))
          [(s0, [])] [] = .ok [] := by
        rw [hsucc, solveLoop_cons, if_neg (by simp), if_pos hs0c]
      have hpp : (Except.ok p : Except String (List Direction)) = .ok [] := by
        rw [← hp]
        exact hempty
      injection hpp
  · intro hnot
    rcases solveLoop_ok_or_error step status maxDepth (searchBudget (maxDepth + 2))
      [(s0, [])] [] with ⟨p, hp⟩ | herr
    · exfalso
      obtain ⟨t, hrt, hct, hlt⟩ := solveLoop_sound step status maxDepth s0
        (searchBudget (maxDepth + 2)) [(s0, [])] [] p hreplayInv hp
      exact hnot ⟨p, t, hrt, hct, hlt⟩
    · exact herr

end SolverProofs

/-- C1 counterexample: a conforming engine whose initial state is already
completing (no move is ever processed, so the moves-only-while-Playing
contract holds vacuously): a completing state is reachable within the depth
bound via zero moves, yet `solve_level` returns the empty direction sequence,
refuting the claimed non-emptiness of the returned sequence. -/
theorem solve_level_empty_path_counterexample :
    MovesOnlyWhilePlaying (fun (_ : Unit) (_ : Direction) => none)
      (fun _ => GameStatus.LevelComplete) ∧
    ReachesCompletionWithin (fun (_ : Unit) (_ : Direction) => none)
      (fun _ => GameStatus.LevelComplete) () 1 ∧
    solve_level (fun (_ : Unit) (_ : Direction) => none)
      (fun _ => GameStatus.LevelComplete) () 1 = .ok [] := by
  refine ⟨fun s d s2 h => by simp at h, ⟨[], (), rfl, rfl, by simp⟩, ?_⟩
  rfl

theorem solve_level_correct_witness :
    MovesOnlyWhilePlaying lineStep lineStatus ∧
    ReachesCompletionWithin lineStep lineStatus 0 1 ∧
    ∃ p t, solve_level lineStep lineStatus 0 1 = .ok p ∧
      replay lineStep 0 p = some t ∧ (lineStatus t).isCompleteStatus = true ∧
      p.length ≤ 1 ∧ (p = [] ↔ (lineStatus 0).isCompleteStatus = true) := by
  have h1 : MovesOnlyWhilePlaying lineStep lineStatus := by
    show ∀ s d s2, lineStep s d = some s2 → lineStatus s = GameStatus.Playing
    decide
  have h2 : ReachesCompletionWithin lineStep lineStatus 0 1 :=
    ⟨[Direction.East], 1, rfl, rfl, by decide⟩
  exact ⟨h1, h2, (solve_level_correct lineStep lineStatus 1 h1 0).1 h2⟩

end GsnakeLevels
